import Mathlib

/-!
Verification of the QMLSense workspace indexer against its specification.

The development shallowly embeds the indexing slices of the repository:
string-keyed association lists stand for the in-memory `Map` objects,
file-system paths and URIs are segment lists, the external tree-sitter
parser is an opaque function parameter, and the embedded relational store
is a small transactional engine modelled at its interface boundary.
-/

-- ==========================================================================
-- DEFINITIONS
-- ==========================================================================

-- Association-list maps (the embedding of JS `Map<string, T>`).

/-- Lookup the first binding of a key, mirroring `Map.get`. -/
def mapFind {α : Type} : List (String × α) → String → Option α
  | [], _ => none
  | p :: rest, k => if p.1 = k then some p.2 else mapFind rest k

/-- Remove all bindings of a key, mirroring `Map.delete` (maps hold one binding per key). -/
def mapErase {α : Type} : List (String × α) → String → List (String × α)
  | [], _ => []
  | p :: rest, k => if p.1 = k then mapErase rest k else p :: mapErase rest k

/-- Insert-or-replace a binding, mirroring `Map.set`: an existing key keeps its
position and gets the new value, a fresh key is appended in insertion order. -/
def mapSet {α : Type} (m : List (String × α)) (k : String) (v : α) : List (String × α) :=
  if m.any (fun p => p.1 = k) then m.map (fun p => if p.1 = k then (k, v) else p)
  else m ++ [(k, v)]

/-- Keys of a map are pairwise distinct (JS `Map` guarantees this). -/
def mapNodup {α : Type} (m : List (String × α)) : Prop :=
  (m.map Prod.fst).Nodup

-- Executable models of the JS string operations used by the indexer
-- (defined on the character list so that concrete instances evaluate).

/-- Model of `String.prototype.startsWith`. -/
def strStartsWith (s pre : String) : Bool := pre.data.isPrefixOf s.data

/-- Model of `String.prototype.endsWith`. -/
def strEndsWith (s suf : String) : Bool := suf.data.isSuffixOf s.data

/-- Split a character list at a separator character, accumulating the current token. -/
def splitChars (sep : Char) : List Char → List Char → List (List Char)
  | [], cur => [cur.reverse]
  | c :: rest, cur =>
    if c = sep then cur.reverse :: splitChars sep rest []
    else splitChars sep rest (c :: cur)

/-- Model of `String.prototype.split` on a single-character separator. -/
def strSplitOnChar (s : String) (sep : Char) : List String :=
  (splitChars sep s.data []).map (fun l => String.mk l)

/-- Model of `Array.prototype.join`. -/
def strIntercalate (sep : String) : List String → String
  | [] => ""
  | x :: rest => rest.foldl (fun acc y => acc ++ sep ++ y) x

/-- Split a character list at whitespace runs. -/
def splitWsChars : List Char → List Char → List (List Char)
  | [], cur => [cur.reverse]
  | c :: rest, cur =>
    if c.isWhitespace then cur.reverse :: splitWsChars rest []
    else splitWsChars rest (c :: cur)

/-- Model of `String.prototype.split` on the whitespace regular expression,
as applied to already-trimmed lines: whitespace runs separate tokens and
empty tokens are dropped. -/
def strSplitWs (s : String) : List String :=
  ((splitWsChars s.data []).map (fun l => String.mk l)).filter (fun t => decide (t ≠ ""))

/-- Model of `String.prototype.trim`. -/
def strTrim (s : String) : String :=
  String.mk (((s.data.dropWhile Char.isWhitespace).reverse.dropWhile Char.isWhitespace).reverse)

-- Import statements and their kind classification
-- (src/src/indexer/qml-files/QmlFileExtractor.extractImports and
-- src/src/indexer/QmlFileIndexer.extractImports share the same classification).

/-- Kind of a parsed import: named module, directory import, or direct file import. -/
inductive ImportKind where
  | module
  | directory
  | file
deriving DecidableEq

/-- Import-kind classification from `extractImports`: a source starting with
a dot or slash is a `file` import exactly when it ends with `.qml` and a
`directory` import otherwise; every other source is a `module` import. -/
def classifyImportSource (source : String) : ImportKind :=
  if strStartsWith source "." || strStartsWith source "/" then
    if strEndsWith source ".qml" then ImportKind.file else ImportKind.directory
  else ImportKind.module

/-- A source range, standing in for `vscode.Range` (line/character pairs). -/
structure SrcRange where
  startLine : Nat
  startCol : Nat
  endLine : Nat
  endCol : Nat
deriving DecidableEq

/-- An import statement as extracted by `QmlFileExtractor` (src/unnamed/part_021). -/
structure ImportStatement where
  type : ImportKind
  source : String
  version : Option String := none
  qualifier : Option String := none
  range : SrcRange := ⟨0, 0, 0, 0⟩
deriving DecidableEq

-- URIs and relative-path resolution (vscode.Uri.joinPath on the path part).

/-- A file URI, reduced to its path segments. -/
structure Uri where
  segments : List String
deriving DecidableEq

/-- One step of posix path normalization: empty and dot segments vanish,
a dot-dot segment pops the last segment, anything else is appended. -/
def normStep (acc : List String) (seg : String) : List String :=
  if seg = "" || seg = "." then acc
  else if seg = ".." then acc.dropLast
  else acc ++ [seg]

/-- Join a relative path onto base segments with posix normalization,
the behaviour of `vscode.Uri.joinPath` on workspace paths. -/
def joinSegs (base : List String) (rel : String) : List String :=
  (strSplitOnChar rel (Char.ofNat 47)).foldl normStep base

/-- Render a file URI the way `Uri.toString` does. -/
def uriRender (u : Uri) : String :=
  "file:///" ++ strIntercalate "/" u.segments

/-- DependencyResolver.resolveRelativePath (src/unnamed/part_020): join the
importing file with dot-dot to get its directory, then join the relative path.
The catch branch of the source is unreachable for well-formed URIs, so the
result is always `some`. -/
def resolveRelativePath (relativePath : String) (fromUri : Uri) : Option Uri :=
  let fromDir : Uri := ⟨joinSegs fromUri.segments ".."⟩
  some ⟨joinSegs fromDir.segments relativePath⟩

/-- DependencyResolver.resolveDependencies (src/unnamed/part_020): each
file-kind import contributes its resolved URI string; other kinds contribute
nothing. -/
def resolveDependencies (imports : List ImportStatement) (currentFile : Uri) : List String :=
  imports.foldl
    (fun dependencies imp =>
      if imp.type = ImportKind.file then
        match resolveRelativePath imp.source currentFile with
        | some resolved => dependencies ++ [uriRender resolved]
        | none => dependencies
      else dependencies)
    []

-- File index entries and the dependency graph (src/unnamed/part_020, part_021).

/-- Export information of a QML file (root component, inline components, singleton flag). -/
structure ExportInfo where
  rootComponent : Option String := none
  inlineComponents : List String := []
  singletonType : Option Bool := none
deriving DecidableEq

/-- A symbol extracted from a QML file. -/
structure SymbolInfo where
  name : String
  type : String
  kind : String
  range : SrcRange := ⟨0, 0, 0, 0⟩
deriving DecidableEq

/-- FileIndexEntry (src/unnamed/part_021): per-file index record including
forward and reverse dependency edges. -/
structure FileIndexEntry where
  uri : String
  imports : List ImportStatement := []
  exports : ExportInfo := {}
  symbols : List SymbolInfo := []
  dependsOn : List String := []
  dependedBy : List String := []
  contentHash : String := ""
  lastModified : Nat := 0
deriving DecidableEq

/-- The in-memory file index of QmlFileIndexer (src/unnamed/part_020). -/
abbrev FileMap : Type := List (String × FileIndexEntry)

/-- Specification of the reverse edges the rebuild produces for a target key:
one occurrence of the source entry's uri for every occurrence of the key in
that entry's dependsOn list, in index iteration order. -/
def collectEdges (entries : List (String × FileIndexEntry)) (q : String) : List String :=
  entries.flatMap
    (fun p => (p.2.dependsOn.filter (fun d => decide (d = q))).map (fun _ => p.2.uri))

/-- QmlFileIndexer.invalidateFile (src/unnamed/part_020): look the URI up;
if absent return unchanged; otherwise delete the entry and recursively
invalidate every URI in its dependedBy list. The source recursion carries no
explicit bound; the fuel argument makes the recursion structural, and the
cascade theorem shows every fuel beyond the map size gives the same result,
which is exactly the termination of the unbounded source recursion. -/
def invalidateFuel : Nat → FileMap → String → FileMap
  | 0, m, _ => m
  | Nat.succ fuel, m, uri =>
    match mapFind m uri with
    | none => m
    | some entry =>
      entry.dependedBy.foldl (fun acc dependentUri => invalidateFuel fuel acc dependentUri)
        (mapErase m uri)

/-- Worklist form of the invalidation cascade: process a stack of pending
URIs, deleting each live one and pushing its dependedBy list. The cascade
theorem relates it to invalidateFuel; it exists because its recursion is
well-founded without fuel. -/
def invalidateGo (m : FileMap) (stack : List String) : FileMap :=
  match stack with
  | [] => m
  | uri :: rest =>
    match h : mapFind m uri with
    | none => invalidateGo m rest
    | some entry => invalidateGo (mapErase m uri) (entry.dependedBy ++ rest)
termination_by (m.length, stack.length)
decreasing_by
  · apply Prod.Lex.right
    simp
  · apply Prod.Lex.left
    have hlt : ∀ (l : FileMap) (k : String) (e : FileIndexEntry),
        mapFind l k = some e → (mapErase l k).length < l.length := by
      intro l k e hfind
      induction l with
      | nil => simp [mapFind] at hfind
      | cons p rest ih =>
        by_cases hp : p.1 = k
        · simp only [mapErase, hp, if_pos]
          have : (mapErase rest k).length ≤ rest.length := by
            clear hfind ih
            induction rest with
            | nil => simp [mapErase]
            | cons q qs ihq =>
              by_cases hq : q.1 = k
              · simp only [mapErase, hq, if_pos, List.length_cons]
                omega
              · simp only [mapErase, hq, if_neg, not_false_iff, List.length_cons]
                omega
          simp only [List.length_cons]
          omega
        · simp only [mapFind, hp, if_neg, not_false_iff] at hfind
          simp only [mapErase, hp, if_neg, not_false_iff, List.length_cons]
          exact Nat.succ_lt_succ (ih hfind)
    exact hlt _ _ _ (by assumption)

/-- Reachability along dependedBy edges through live entries: the relation
closed under starting at a live entry and following one dependedBy edge.
It captures the set of entries the invalidation cascade removes. -/
inductive DependedReach (m : FileMap) : String → String → Prop where
  | here : ∀ {u : String} {e : FileIndexEntry},
      mapFind m u = some e → DependedReach m u u
  | step : ∀ {u v w : String} {e : FileIndexEntry},
      mapFind m u = some e → v ∈ e.dependedBy → DependedReach m v w → DependedReach m u w

/-- A three-entry file index whose dependedBy edges form the cycle
A to B to C back to A, used to exercise the cascade on a cyclic graph. -/
def cyc3 : FileMap :=
  [("A", { uri := "A", dependsOn := ["C"], dependedBy := ["B"] }),
   ("B", { uri := "B", dependsOn := ["A"], dependedBy := ["C"] }),
   ("C", { uri := "C", dependsOn := ["B"], dependedBy := ["A"] })]

/-- First pass of DependencyResolver.buildDependencyGraph: reset every
entry.dependedBy to the empty list. -/
def clearDependedBy (m : FileMap) : FileMap :=
  m.map (fun p => (p.1, { p.2 with dependedBy := [] }))

/-- One reverse edge of the second pass: if the depended-on URI is a live key,
append the source URI to that entry.dependedBy, else do nothing. -/
def pushDependedBy (m : FileMap) (depUri : String) (srcUri : String) : FileMap :=
  m.map (fun p =>
    if p.1 = depUri then (p.1, { p.2 with dependedBy := p.2.dependedBy ++ [srcUri] }) else p)

/-- DependencyResolver.buildDependencyGraph (src/unnamed/part_020): clear all
reverse edges, then for every entry and every forward edge push the reverse
edge onto the target when it is live. -/
def buildDependencyGraph (m : FileMap) : FileMap :=
  let cleared := clearDependedBy m
  cleared.foldl
    (fun acc p =>
      p.2.dependsOn.foldl (fun acc2 depUri => pushDependedBy acc2 depUri p.2.uri) acc)
    cleared

-- Concrete two-file scenario of the spec: A.qml imports ./B.qml, B.qml has no imports.

/-- URI of A.qml in the two-file scenario. -/
def uriA : Uri := ⟨["ws", "A.qml"]⟩

/-- URI of B.qml in the two-file scenario. -/
def uriB : Uri := ⟨["ws", "B.qml"]⟩

/-- The import statement `import "./B.qml"` inside A.qml, with its kind assigned
by the extractor's classification. -/
def importAtoB : ImportStatement :=
  { type := classifyImportSource "./B.qml", source := "./B.qml" }

/-- Index entry produced for A.qml: dependsOn is resolved from its imports,
dependedBy starts empty, as in QmlFileIndexer.indexFileForBatch. -/
def entryA : FileIndexEntry :=
  { uri := uriRender uriA, imports := [importAtoB],
    dependsOn := resolveDependencies [importAtoB] uriA }

/-- Index entry produced for B.qml (no imports). -/
def entryB : FileIndexEntry :=
  { uri := uriRender uriB, dependsOn := resolveDependencies [] uriB }

/-- The file index after scanning the two-file workspace. -/
def scanMapAB : FileMap :=
  [(uriRender uriA, entryA), (uriRender uriB, entryB)]

/-- A directory import used as a concrete non-edge example. -/
def dirImp : ImportStatement :=
  { type := classifyImportSource "./components", source := "./components" }

/-- An arbitrary concrete importing file. -/
def u0 : Uri := ⟨["ws", "Main.qml"]⟩

-- Manifest (qmldir) parsing: the two generations of the parser.

/-- Directive kinds produced by the qmldir parsers. The ModuleWatcher.ts
parser uses moduleDecl, singleton and component; the part_019 ModuleExtractor
additionally produces the metadata kinds, and its component declarations
reuse moduleDecl with a typeName, as in the source. -/
inductive QmldirEntryType where
  | moduleDecl
  | singleton
  | component
  | typeinfoDecl
  | pluginDecl
  | classnameDecl
  | dependsDecl
  | importDecl
  | optionalDecl
  | defaultDecl
  | designersupported
deriving DecidableEq

/-- A parsed qmldir directive record (all fields optional, as in the source
where absent tokens are undefined). -/
structure QmldirEntry where
  type : QmldirEntryType
  moduleName : Option String := none
  typeName : Option String := none
  version : Option String := none
  filePath : Option String := none
deriving DecidableEq

/-- JS truthiness of an optional string: undefined and the empty string are falsy. -/
def strTruthy : Option String → Bool
  | none => false
  | some s => decide (s ≠ "")

/-- ModuleExtractor.parseLine (src/unnamed/part_019): keyword dispatch for a
trimmed manifest line; depends, import, plugin, classname and typeinfo lines
become metadata records of their own kind; component declarations fall into
the default branch as a moduleDecl record carrying a typeName. -/
def parseLine (line : String) : Option QmldirEntry :=
  let parts := strSplitWs line
  match parts with
  | [] => none
  | keyword :: _ =>
    if keyword = "module" then some { type := QmldirEntryType.moduleDecl, moduleName := parts[1]? }
    else if keyword = "singleton" then
      if 4 ≤ parts.length then
        some { type := QmldirEntryType.singleton, typeName := parts[1]?,
               version := parts[2]?, filePath := parts[3]? }
      else none
    else if keyword = "typeinfo" then
      some { type := QmldirEntryType.typeinfoDecl, filePath := parts[1]? }
    else if keyword = "plugin" then
      some { type := QmldirEntryType.pluginDecl, moduleName := parts[1]? }
    else if keyword = "classname" then
      some { type := QmldirEntryType.classnameDecl, typeName := parts[1]? }
    else if keyword = "depends" then
      if 3 ≤ parts.length then
        some { type := QmldirEntryType.dependsDecl, moduleName := parts[1]?, version := parts[2]? }
      else none
    else if keyword = "import" then
      if 3 ≤ parts.length then
        some { type := QmldirEntryType.importDecl, moduleName := parts[1]?, version := parts[2]? }
      else none
    else if keyword = "optional" then
      some { type := QmldirEntryType.optionalDecl, moduleName := parts[1]? }
    else if keyword = "default" then
      some { type := QmldirEntryType.defaultDecl, typeName := parts[1]? }
    else if keyword = "designersupported" then
      some { type := QmldirEntryType.designersupported }
    else if 3 ≤ parts.length then
      some { type := QmldirEntryType.moduleDecl, typeName := parts[0]?,
             version := parts[1]?, filePath := parts[2]? }
    else none

/-- ModuleExtractor.parse (src/unnamed/part_019): split into lines, skip blank
and comment lines, collect the parsed directives. -/
def moduleExtractorParse (content : String) : List QmldirEntry :=
  (strSplitOnChar content (Char.ofNat 10)).foldl
    (fun entries line =>
      let trimmed := strTrim line
      if trimmed = "" || strStartsWith trimmed "#" then entries
      else
        match parseLine trimmed with
        | some e => entries ++ [e]
        | none => entries)
    []

/-- One line of ModuleIndexer.parseQmldir (src/src/indexer/modules/ModuleWatcher.ts):
module and four-token singleton lines are special; any other line with at
least three whitespace-separated tokens is read as a component declaration. -/
def parseQmldirLine (trimmed : String) : Option QmldirEntry :=
  let parts := strSplitWs trimmed
  match parts with
  | [] => none
  | keyword :: _ =>
    if keyword = "module" then
      some { type := QmldirEntryType.moduleDecl, moduleName := parts[1]? }
    else if keyword = "singleton" ∧ 4 ≤ parts.length then
      some { type := QmldirEntryType.singleton, typeName := parts[1]?,
             version := parts[2]?, filePath := parts[3]? }
    else if 3 ≤ parts.length then
      some { type := QmldirEntryType.component, typeName := parts[0]?,
             version := parts[1]?, filePath := parts[2]? }
    else none

/-- ModuleIndexer.parseQmldir (src/src/indexer/modules/ModuleWatcher.ts). -/
def parseQmldir (content : String) : List QmldirEntry :=
  (strSplitOnChar content (Char.ofNat 10)).foldl
    (fun entries line =>
      let trimmed := strTrim line
      if trimmed = "" || strStartsWith trimmed "#" then entries
      else
        match parseQmldirLine trimmed with
        | some e => entries ++ [e]
        | none => entries)
    []

-- The module registry (src/src/indexer/modules/ModuleWatcher.ts).

/-- A component of a module registry entry. -/
structure Component where
  name : String
  filePath : Option String := none
  isBuiltin : Bool
  isSingleton : Bool
  version : Option String := none
deriving DecidableEq

/-- A module registry entry (the source calls this Module, a name Lean
already reserves). -/
structure QmlModule where
  name : String
  version : String
  qmldirPath : Option String := none
  components : List (String × Component)
deriving DecidableEq

/-- The in-memory module registry. -/
abbrev ModuleMap : Type := List (String × QmlModule)

/-- Model of path.basename on a segment-list directory. -/
def baseName (dir : List String) : String :=
  (dir.getLast?).getD ""

/-- Model of path.join of a directory and a relative file name. -/
def pathJoin (dir : List String) (rel : String) : String :=
  strIntercalate "/" (dir ++ [rel])

/-- One step of the directive loop in ModuleIndexer.indexQmldir: a module
directive (with truthy name, no typeName) sets the module name; component and
singleton directives with truthy typeName and filePath are set into the
components map with the path joined against the manifest directory. -/
def qmldirScanStep (moduleDir : List String)
    (acc : String × List (String × Component)) (entry : QmldirEntry) :
    String × List (String × Component) :=
  if entry.type = QmldirEntryType.moduleDecl ∧ strTruthy entry.moduleName = true
      ∧ ¬ strTruthy entry.typeName = true then
    (entry.moduleName.getD "", acc.2)
  else if entry.type = QmldirEntryType.component ∧ strTruthy entry.typeName = true
      ∧ strTruthy entry.filePath = true then
    (acc.1,
      mapSet acc.2 (entry.typeName.getD "")
        { name := entry.typeName.getD "",
          filePath := some (pathJoin moduleDir (entry.filePath.getD "")),
          isBuiltin := false, isSingleton := false, version := entry.version })
  else if entry.type = QmldirEntryType.singleton ∧ strTruthy entry.typeName = true
      ∧ strTruthy entry.filePath = true then
    (acc.1,
      mapSet acc.2 (entry.typeName.getD "")
        { name := entry.typeName.getD "",
          filePath := some (pathJoin moduleDir (entry.filePath.getD "")),
          isBuiltin := false, isSingleton := true, version := entry.version })
  else acc

/-- ModuleIndexer.indexQmldir (src/src/indexer/modules/ModuleWatcher.ts), pure
part: skip when a registry entry already has this qmldirPath; otherwise parse,
build the name and components, fall back to the directory basename for the
name, and register plus persist only when at least one component was found.
Result: (new registry, module handed to the store, wasNew flag). -/
def indexQmldir (modules : ModuleMap) (qmldirFsPath : String) (moduleDir : List String)
    (content : String) : ModuleMap × Option QmlModule × Bool :=
  if modules.any (fun p => p.2.qmldirPath = some qmldirFsPath) then (modules, none, false)
  else
    let entries := parseQmldir content
    let st := entries.foldl (qmldirScanStep moduleDir) ("", [])
    let moduleName := if st.1 = "" then baseName moduleDir else st.1
    if 0 < st.2.length then
      let m : QmlModule :=
        { name := moduleName, version := "1.0", qmldirPath := some qmldirFsPath,
          components := st.2 }
      (mapSet modules moduleName m, some m, true)
    else (modules, none, false)

/-- ModuleIndexer.matchesModuleName (src/src/indexer/modules/ModuleWatcher.ts):
exact match, or the trailing dot-segments of the cached name, as many as the
requested name has, joined with a dot, equal the requested name. -/
def matchesModuleName (cached requested : String) : Bool :=
  if cached = requested then true
  else
    let parts := strSplitOnChar cached (Char.ofNat 46)
    let reqParts := strSplitOnChar requested (Char.ofNat 46)
    if parts.length < reqParts.length then false
    else decide (strIntercalate "." (parts.drop (parts.length - reqParts.length)) = requested)

/-- ModuleIndexer.resolveModule (src/src/indexer/modules/ModuleWatcher.ts):
exact key lookup first, otherwise the first registry entry in iteration order
whose name suffix-matches, otherwise null. The unused version parameter of
the source is omitted. -/
def resolveModule (modules : ModuleMap) (name : String) : Option QmlModule :=
  match mapFind modules name with
  | some m => some m
  | none =>
    match modules.find? (fun p => matchesModuleName p.1 name) with
    | some p => some p.2
    | none => none

/-- ModuleResolver.inferModuleName (src/src/indexer/modules/ModuleWatcher.ts),
loop over the workspace folders: for the first folder whose path is a prefix
of the module directory, take the relative segments, look for the first
segment that is a configured root marker, and join the segments after it with
a dot when the marker is not the last segment; otherwise join all relative
segments; when no folder matches (or none exist), fall back to the basename. -/
def inferModuleNameLoop (markers : List String) (moduleDir : List String) :
    List (List String) → String
  | [] => baseName moduleDir
  | ws :: rest =>
    if moduleDir.take ws.length = ws then
      let parts := moduleDir.drop ws.length
      match parts.findIdx? (fun seg => decide (seg ∈ markers)) with
      | some i =>
        if i < parts.length - 1 then strIntercalate "." (parts.drop (i + 1))
        else strIntercalate "." parts
      | none => strIntercalate "." parts
    else inferModuleNameLoop markers moduleDir rest

/-- ModuleResolver.inferModuleName: an absent workspace-folder list gives the
basename; otherwise the folder loop runs. -/
def inferModuleName (wsFolders : List (List String)) (rootMarkers : List String)
    (moduleDir : List String) : String :=
  inferModuleNameLoop rootMarkers moduleDir wsFolders

/-- The default qml.modules.rootMarkers configuration value. -/
def defaultRootMarkers : List String := ["Modules", "imports", "qml", "src"]

-- QmlFileIndexer.indexFile (src/src/indexer/QmlFileIndexer.ts).

/-- An import statement as stored in QmlFile (src/src/indexer/types.ts). -/
structure Import where
  type : ImportKind
  source : String
  version : Option String := none
  aliasName : Option String := none
  range : SrcRange := ⟨0, 0, 0, 0⟩
deriving DecidableEq

/-- QmlFile (src/src/indexer/types.ts): per-file record of the simple indexer. -/
structure QmlFile where
  uri : String
  imports : List Import := []
  rootComponent : Option String := none
  inlineComponents : List String := []
  symbols : List SymbolInfo := []
  hash : String
  mtime : Nat
deriving DecidableEq

/-- The extraction results of one parse: what extractImports,
extractRootComponent, extractInlineComponents and extractSymbols return.
The external parser and the extraction walk enter the model only through a
function of the file text. -/
structure ExtractedData where
  imports : List Import := []
  rootComponent : Option String := none
  inlineComponents : List String := []
  symbols : List SymbolInfo := []
deriving DecidableEq

/-- The parse-and-extract path of indexFile: build the new QmlFile from the
extraction of the text, store it under the URI. The Bool records that the
parser ran. -/
def indexFileParse (files : List (String × QmlFile)) (extract : String → ExtractedData)
    (uriString : String) (text : String) (hash : String) (mtime : Nat) :
    (List (String × QmlFile)) × QmlFile × Bool :=
  let ex := extract text
  let file : QmlFile :=
    { uri := uriString, imports := ex.imports, rootComponent := ex.rootComponent,
      inlineComponents := ex.inlineComponents, symbols := ex.symbols,
      hash := hash, mtime := mtime }
  (mapSet files uriString file, file, true)

/-- QmlFileIndexer.indexFile (src/src/indexer/QmlFileIndexer.ts), pure part:
hash the text; when an in-memory entry exists with the same hash and the same
file-system mtime, return it unchanged without parsing; otherwise parse and
replace. The digest function and the parser are parameters. Result:
(new map, returned entry, whether the parser was invoked). -/
def indexFile (files : List (String × QmlFile)) (hashFn : String → String)
    (extract : String → ExtractedData) (uriString : String) (text : String)
    (mtime : Nat) : (List (String × QmlFile)) × QmlFile × Bool :=
  let hash := hashFn text
  match mapFind files uriString with
  | some existing =>
    if existing.hash = hash ∧ existing.mtime = mtime then (files, existing, false)
    else indexFileParse files extract uriString text hash mtime
  | none => indexFileParse files extract uriString text hash mtime

-- The persistent store (src/src/indexer/cacheStore.ts), modelled as statement
-- sequences against a transactional engine. The engine itself is the external
-- embedded relational store at its interface: BEGIN snapshots, statements
-- apply to the open transaction, COMMIT installs it, ROLLBACK discards it,
-- and a failing statement applies nothing but flags the error that the
-- statement finalization reports.

/-- A connection: committed state plus an optional open transaction. -/
structure Conn (σ : Type) where
  committed : σ
  txn : Option σ
deriving DecidableEq

/-- Apply a successful data statement: inside the open transaction when one
is active, else autocommitted. -/
def applyStmt {σ : Type} (c : Conn σ) (f : σ → σ) : Conn σ :=
  match c.txn with
  | some t => { c with txn := some (f t) }
  | none => { c with committed := f c.committed }

/-- BEGIN TRANSACTION. -/
def beginTx {σ : Type} (c : Conn σ) : Conn σ := { c with txn := some c.committed }

/-- COMMIT: install the transaction state. -/
def commitTx {σ : Type} (c : Conn σ) : Conn σ :=
  match c.txn with
  | some t => { committed := t, txn := none }
  | none => c

/-- ROLLBACK: discard the transaction state. -/
def rollbackTx {σ : Type} (c : Conn σ) : Conn σ := { c with txn := none }

/-- Run a sequence of data statements, each paired with its failure flag: a
failing statement changes nothing but raises the error flag that the
enclosing save observes at finalize time. -/
def runStmts {σ : Type} (c : Conn σ) (stmts : List ((σ → σ) × Bool)) : Conn σ × Bool :=
  stmts.foldl
    (fun acc s => if s.2 then (acc.1, true) else (applyStmt acc.1 s.1, acc.2))
    (c, false)

/-- Finalize a statement run: ROLLBACK and reject when the run reported an
error, COMMIT and resolve otherwise. -/
def finishTx {σ : Type} (run : Conn σ × Bool) : Conn σ × Bool :=
  if run.2 then (rollbackTx run.1, false) else (commitTx run.1, true)

/-- The qml_files table, keyed by file path; the row holds the serialized
entry fields. -/
abbrev QmlFilesTable : Type := List (String × FileIndexEntry)

/-- CacheStore.saveQmlFilesBatch (src/src/indexer/cacheStore.ts): empty input
returns at once; otherwise BEGIN, one INSERT OR REPLACE per file, then COMMIT
when the statement finalization reported no error and ROLLBACK otherwise.
The per-path failure oracle stands for statement errors. -/
def saveQmlFilesBatch (c : Conn QmlFilesTable) (files : List (String × FileIndexEntry))
    (failing : String → Bool) : Conn QmlFilesTable × Bool :=
  if files.isEmpty then (c, true)
  else
    finishTx (runStmts (beginTx c)
      (files.map (fun f => (fun t => mapSet t f.1 f.2, failing f.1))))

/-- A row of the modules table. -/
structure ModuleRow where
  version : String
  qmldirPath : Option String := none
  lastModified : Nat := 0
deriving DecidableEq

/-- A row of the components table. -/
structure CompRow where
  filePath : Option String := none
  isBuiltin : Bool
  isSingleton : Bool
  version : Option String := none
deriving DecidableEq

/-- The two tables the module save touches; components are keyed by
module name and component name. -/
structure ModulesDb where
  modules : List (String × ModuleRow)
  components : List ((String × String) × CompRow)
deriving DecidableEq

/-- INSERT OR REPLACE INTO modules. -/
def insertOrReplaceModule (name : String) (row : ModuleRow) (db : ModulesDb) : ModulesDb :=
  { db with modules := mapSet db.modules name row }

/-- DELETE FROM components WHERE module_name matches. -/
def deleteComponents (moduleName : String) (db : ModulesDb) : ModulesDb :=
  { db with components := db.components.filter (fun p => decide (p.1.1 ≠ moduleName)) }

/-- Plain INSERT INTO components (a key conflict would surface as a statement
failure through the oracle). -/
def insertComponentRow (key : String × String) (row : CompRow) (db : ModulesDb) : ModulesDb :=
  { db with components := db.components ++ [(key, row)] }

/-- The component row written for one registry component. -/
def compRowOf (c : Component) : CompRow :=
  { filePath := c.filePath, isBuiltin := c.isBuiltin, isSingleton := c.isSingleton,
    version := c.version }

/-- CacheStore.saveModule (src/src/indexer/cacheStore.ts): BEGIN, INSERT OR
REPLACE the module row, DELETE the old component rows, one INSERT per
component, then COMMIT on no error and ROLLBACK otherwise. The Bool flags and
the per-component oracle stand for the statement errors. -/
def saveModule (c : Conn ModulesDb) (module : QmlModule) (lastModified : Nat)
    (failInsertModule failDelete : Bool) (failingComp : String → Bool) :
    Conn ModulesDb × Bool :=
  finishTx (runStmts (beginTx c)
    ((insertOrReplaceModule module.name
        { version := module.version, qmldirPath := module.qmldirPath,
          lastModified := lastModified }, failInsertModule)
      :: (deleteComponents module.name, failDelete)
      :: module.components.map
          (fun comp => (insertComponentRow (module.name, comp.1) (compRowOf comp.2),
            failingComp comp.1))))

-- Concrete instances used by witnesses and counterexamples.

/-- The single component of the Foo.Bar.Baz example module. -/
def bazComponent : Component :=
  { name := "Baz", filePath := some "/ws/Foo/Bar/Baz/Baz.qml",
    isBuiltin := false, isSingleton := false, version := some "1.0" }

/-- A registry entry named Foo.Bar.Baz. -/
def fooBarBazModule : QmlModule :=
  { name := "Foo.Bar.Baz", version := "1.0", qmldirPath := some "/ws/Foo/Bar/Baz/qmldir",
    components := [("Baz", bazComponent)] }

/-- A manifest whose only metadata-bearing line is a three-token depends line. -/
def dependsManifest : String :=
  "module M
depends QtQuick 2.15
Item 1.0 Item.qml"

/-- A manifest with a module name but no component or singleton directives. -/
def emptyManifest : String :=
  "module Empty
plugin myplugin
# just a comment"

/-- A cached QmlFile entry used by the idempotence witness: its hash is the
digest (under the identity stand-in digest) of the text X at mtime one. -/
def sampleQmlFile : QmlFile :=
  { uri := "file:///ws/A.qml", hash := "X", mtime := 1 }

/-- The identity function as a stand-in content digest for witnesses. -/
def idDigest (t : String) : String := t

/-- An extraction oracle returning nothing, for witnesses. -/
def emptyExtract (_ : String) : ExtractedData := {}

/-- A one-line manifest declaring one component and no module directive. -/
def noNameManifest : String := "Item 1.0 Item.qml"

/-- The registry entry ModuleIndexer.indexQmldir builds from noNameManifest in
directory p: with no module directive the name falls back to the directory
basename. -/
def basenameFallbackModule : QmlModule :=
  { name := "p", version := "1.0", qmldirPath := some "/p/qmldir",
    components := [("Item",
      { name := "Item", filePath := some "p/Item.qml",
        isBuiltin := false, isSingleton := false, version := some "1.0" })] }

/-- The modules-table row written for a registry entry at a given mtime. -/
def moduleRowOf (module : QmlModule) (lm : Nat) : ModuleRow :=
  { version := module.version, qmldirPath := module.qmldirPath, lastModified := lm }

/-- The expected post-state of a successful module save: the module row
replaced, the old component rows of that module deleted, and one fresh row
per registry component appended. -/
def savedModulesDb (db : ModulesDb) (module : QmlModule) (lm : Nat) : ModulesDb :=
  { modules := mapSet db.modules module.name (moduleRowOf module lm),
    components := (db.components.filter (fun p => decide (p.1.1 ≠ module.name)))
      ++ module.components.map (fun comp => ((module.name, comp.1), compRowOf comp.2)) }

-- ==========================================================================
-- THEOREMS
-- ==========================================================================

-- Helper lemmas on map primitives.

theorem mapFind_eq_none_iff {α : Type} (m : List (String × α)) (k : String) :
    mapFind m k = none ↔ ∀ p ∈ m, p.1 ≠ k := by
  induction m with
  | nil => simp [mapFind]
  | cons p rest ih =>
    by_cases h : p.1 = k
    · simp [mapFind, h]
    · simp [mapFind, h, ih]

theorem mapFind_mem {α : Type} {m : List (String × α)} {k : String} {v : α}
    (h : mapFind m k = some v) : (k, v) ∈ m := by
  induction m with
  | nil => simp [mapFind] at h
  | cons p rest ih =>
    by_cases hk : p.1 = k
    · simp [mapFind, hk] at h
      subst hk h
      exact List.mem_cons_self _ _
    · simp [mapFind, hk] at h
      exact List.mem_cons_of_mem _ (ih h)

-- Dependency extraction: resolveDependencies as a filter-and-map over imports.

theorem resolveDependencies_go (imports : List ImportStatement) (u : Uri)
    (acc : List String) :
    imports.foldl
      (fun dependencies imp =>
        if imp.type = ImportKind.file then
          match resolveRelativePath imp.source u with
          | some resolved => dependencies ++ [uriRender resolved]
          | none => dependencies
        else dependencies)
      acc
    = acc ++ (imports.filter (fun i => decide (i.type = ImportKind.file))).map
        (fun i => uriRender ⟨joinSegs (joinSegs u.segments "..") i.source⟩) := by
  induction imports generalizing acc with
  | nil => simp
  | cons i rest ih =>
    by_cases h : i.type = ImportKind.file
    · simp only [List.foldl_cons, h, if_pos, List.filter_cons, decide_eq_true_eq]
      rw [ih]
      simp [resolveRelativePath, h]
    · simp only [List.foldl_cons, h, if_neg, List.filter_cons, decide_eq_true_eq]
      rw [ih]
      simp [h]

theorem resolveDependencies_filter_map (imports : List ImportStatement) (u : Uri) :
    resolveDependencies imports u
    = (imports.filter (fun i => decide (i.type = ImportKind.file))).map
        (fun i => uriRender ⟨joinSegs (joinSegs u.segments "..") i.source⟩) := by
  unfold resolveDependencies
  rw [resolveDependencies_go]
  simp

/-- C7: dependsOn edges come solely from file-kind imports, each resolved by
joining the relative path against the importing file's parent directory;
module and directory imports contribute no edge. In the two-file scenario
(A.qml imports ./B.qml, B.qml has no imports), after the scan A.dependsOn is
exactly B's URI and B.dependedBy is exactly A's URI. -/
theorem dependency_extraction_file_imports :
    (∀ (imports : List ImportStatement) (u : Uri),
      resolveDependencies imports u
      = (imports.filter (fun i => decide (i.type = ImportKind.file))).map
          (fun i => uriRender ⟨joinSegs (joinSegs u.segments "..") i.source⟩))
    ∧ entryA.dependsOn = [uriRender uriB]
    ∧ mapFind (buildDependencyGraph scanMapAB) (uriRender uriB)
      = some { entryB with dependedBy := [uriRender uriA] } := by
  refine ⟨resolveDependencies_filter_map, ?_, ?_⟩
  · decide
  · decide

/-- C10: import-kind classification is total and suffix-driven. A source
beginning with a dot or slash is classified as a file import exactly when it
ends with `.qml` and as a directory import otherwise; every other source is a
module import; consequently a relative import whose path does not end in
`.qml` never produces a dependsOn edge. -/
theorem importKind_classification_total (s : String) :
    ((strStartsWith s "." || strStartsWith s "/") = true →
      (classifyImportSource s = ImportKind.file ↔ strEndsWith s ".qml" = true)
      ∧ (classifyImportSource s = ImportKind.directory ↔ strEndsWith s ".qml" = false))
    ∧ ((strStartsWith s "." || strStartsWith s "/") = false →
      classifyImportSource s = ImportKind.module)
    ∧ (∀ (i : ImportStatement) (rest : List ImportStatement) (u : Uri),
      i.type = classifyImportSource i.source →
      (strStartsWith i.source "." || strStartsWith i.source "/") = true →
      strEndsWith i.source ".qml" = false →
      resolveDependencies (i :: rest) u = resolveDependencies rest u) := by
  refine ⟨?_, ?_, ?_⟩
  · intro h
    constructor
    · unfold classifyImportSource
      rw [h]
      by_cases he : strEndsWith s ".qml" <;> simp [he]
    · unfold classifyImportSource
      rw [h]
      by_cases he : strEndsWith s ".qml" <;> simp [he]
  · intro h
    unfold classifyImportSource
    rw [h]
    simp
  · intro i rest u htype hstart hend
    have hdir : i.type = ImportKind.directory := by
      rw [htype]
      unfold classifyImportSource
      rw [hstart, hend]
      simp
    rw [resolveDependencies_filter_map, resolveDependencies_filter_map]
    simp [List.filter_cons, hdir]

/-- Witness for C10 at the concrete source `./components`. -/
theorem importKind_classification_total_witness :
    classifyImportSource "./components" = ImportKind.directory
    ∧ resolveDependencies [dirImp] u0 = resolveDependencies [] u0 :=
  ⟨((importKind_classification_total "./components").1 (by decide)).2.mpr (by decide),
   (importKind_classification_total "./components").2.2 dirImp [] u0 rfl
     (by decide) (by decide)⟩

-- Invalidation cascade: map lemmas and the worklist characterization.

theorem mapErase_length_le {α : Type} (m : List (String × α)) (k : String) :
    (mapErase m k).length ≤ m.length := by
  induction m with
  | nil => simp [mapErase]
  | cons p rest ih =>
    by_cases hp : p.1 = k
    · simp only [mapErase, hp, if_pos, List.length_cons]
      omega
    · simp only [mapErase, hp, if_neg, not_false_iff, List.length_cons]
      omega

theorem mapErase_length_lt {α : Type} {m : List (String × α)} {k : String} {v : α}
    (h : mapFind m k = some v) : (mapErase m k).length < m.length := by
  induction m with
  | nil => simp [mapFind] at h
  | cons p rest ih =>
    by_cases hp : p.1 = k
    · simp only [mapErase, hp, if_pos, List.length_cons]
      have := mapErase_length_le rest k
      omega
    · simp only [mapFind, hp, if_neg, not_false_iff] at h
      simp only [mapErase, hp, if_neg, not_false_iff, List.length_cons]
      exact Nat.succ_lt_succ (ih h)

theorem mapFind_mapErase {α : Type} (m : List (String × α)) (k q : String) :
    mapFind (mapErase m k) q = if q = k then none else mapFind m q := by
  induction m with
  | nil => by_cases hq : q = k <;> simp [mapErase, mapFind, hq]
  | cons p rest ih =>
    by_cases hp : p.1 = k
    · rw [mapErase, if_pos hp, ih]
      by_cases hq : q = k
      · simp [hq]
      · have hpq : ¬ p.1 = q := fun hc => hq ((hc.symm.trans hp))
        simp [hq, mapFind, hpq]
    · rw [mapErase, if_neg hp, mapFind]
      by_cases hpq : p.1 = q
      · have hq : ¬ q = k := fun hc => hp (hpq.trans hc)
        simp [hpq, hq, mapFind]
      · rw [if_neg hpq, ih]
        by_cases hq : q = k
        · simp [hq]
        · simp [hq, mapFind, hpq]

theorem mapErase_sublist {α : Type} (m : List (String × α)) (k : String) :
    (mapErase m k).Sublist m := by
  induction m with
  | nil => simp [mapErase]
  | cons p rest ih =>
    by_cases hp : p.1 = k
    · simp only [mapErase, hp, if_pos]
      exact ih.cons p
    · simp only [mapErase, hp, if_neg, not_false_iff]
      exact ih.cons₂ p

theorem mapFind_none_of_sublist {α : Type} {m l : List (String × α)} {k : String}
    (hsub : l.Sublist m) (h : mapFind m k = none) : mapFind l k = none := by
  rw [mapFind_eq_none_iff] at h ⊢
  intro p hp
  exact h p (hsub.subset hp)

theorem invalidateGo_nil (m : FileMap) : invalidateGo m [] = m := by
  rw [invalidateGo]

theorem invalidateGo_cons_none (m : FileMap) (uri : String) (rest : List String)
    (h : mapFind m uri = none) : invalidateGo m (uri :: rest) = invalidateGo m rest := by
  rw [invalidateGo]
  split
  · rfl
  · rename_i e heq
    rw [h] at heq
    cases heq

theorem invalidateGo_cons_some (m : FileMap) (uri : String) (rest : List String)
    (e : FileIndexEntry) (h : mapFind m uri = some e) :
    invalidateGo m (uri :: rest) = invalidateGo (mapErase m uri) (e.dependedBy ++ rest) := by
  rw [invalidateGo]
  split
  · rename_i heq
    rw [h] at heq
    cases heq
  · rename_i e2 heq
    rw [h] at heq
    cases heq
    rfl

theorem invalidateGo_sublist_aux :
    ∀ (n : Nat) (m : FileMap) (st : List String), m.length ≤ n →
      (invalidateGo m st).Sublist m := by
  intro n
  induction n with
  | zero =>
    intro m st hlen
    have hm : m = [] := List.eq_nil_of_length_eq_zero (Nat.le_zero.mp hlen)
    subst hm
    induction st with
    | nil => simp [invalidateGo_nil]
    | cons u rest ih =>
      rw [invalidateGo_cons_none _ _ _ (by simp [mapFind])]
      exact ih
  | succ n2 ihn =>
    intro m st hlen
    induction st with
    | nil => simp [invalidateGo_nil]
    | cons u rest ihst =>
      cases hfind : mapFind m u with
      | none =>
        rw [invalidateGo_cons_none _ _ _ hfind]
        exact ihst
      | some e =>
        rw [invalidateGo_cons_some _ _ _ _ hfind]
        have h1 : (mapErase m u).length ≤ n2 := by
          have := mapErase_length_lt hfind
          omega
        exact (ihn _ _ h1).trans (mapErase_sublist m u)

theorem invalidateGo_sublist (m : FileMap) (st : List String) :
    (invalidateGo m st).Sublist m :=
  invalidateGo_sublist_aux m.length m st (le_refl _)

theorem invalidateGo_append_aux :
    ∀ (n : Nat) (m : FileMap) (a b : List String), m.length ≤ n →
      invalidateGo m (a ++ b) = invalidateGo (invalidateGo m a) b := by
  intro n
  induction n with
  | zero =>
    intro m a b hlen
    have hm : m = [] := List.eq_nil_of_length_eq_zero (Nat.le_zero.mp hlen)
    subst hm
    have hnil : ∀ (st : List String), invalidateGo [] st = [] := by
      intro st
      induction st with
      | nil => simp [invalidateGo_nil]
      | cons u rest ih =>
        rw [invalidateGo_cons_none _ _ _ (by simp [mapFind])]
        exact ih
    rw [hnil, hnil, hnil]
  | succ n2 ihn =>
    intro m a b hlen
    induction a with
    | nil => simp [invalidateGo_nil]
    | cons u a2 iha =>
      cases hfind : mapFind m u with
      | none =>
        rw [List.cons_append, invalidateGo_cons_none _ _ _ hfind,
          invalidateGo_cons_none _ _ _ hfind]
        exact iha
      | some e =>
        have hlt := mapErase_length_lt hfind
        rw [List.cons_append, invalidateGo_cons_some _ _ _ _ hfind,
          invalidateGo_cons_some _ _ _ _ hfind, ← List.append_assoc]
        exact ihn _ _ _ (by omega)

theorem invalidateGo_append (m : FileMap) (a b : List String) :
    invalidateGo m (a ++ b) = invalidateGo (invalidateGo m a) b :=
  invalidateGo_append_aux m.length m a b (le_refl _)

theorem invalidateFuel_nil_map (f : Nat) (u : String) : invalidateFuel f [] u = [] := by
  cases f <;> simp [invalidateFuel, mapFind]

theorem foldl_fuel_go_aux :
    ∀ (n : Nat) (l : List String) (f : Nat) (m : FileMap), m.length ≤ n → n < f →
      l.foldl (fun acc d => invalidateFuel f acc d) m = invalidateGo m l := by
  intro n
  induction n with
  | zero =>
    intro l f m hlen hf
    have hm : m = [] := List.eq_nil_of_length_eq_zero (Nat.le_zero.mp hlen)
    subst hm
    induction l with
    | nil => simp [invalidateGo_nil]
    | cons d ds ih =>
      rw [List.foldl_cons, invalidateFuel_nil_map,
        invalidateGo_cons_none _ _ _ (by simp [mapFind])]
      exact ih
  | succ n2 ihn =>
    intro l f m hlen hf
    induction l generalizing m with
    | nil => simp [invalidateGo_nil]
    | cons d ds ih =>
      obtain ⟨f2, rfl⟩ : ∃ f2, f = f2 + 1 := ⟨f - 1, by omega⟩
      rw [List.foldl_cons]
      cases hfind : mapFind m d with
      | none =>
        have hstep : invalidateFuel (f2 + 1) m d = m := by
          simp [invalidateFuel, hfind]
        rw [hstep, invalidateGo_cons_none _ _ _ hfind]
        exact ih m hlen
      | some e =>
        have hlt := mapErase_length_lt hfind
        have hstep : invalidateFuel (f2 + 1) m d = invalidateGo m [d] := by
          have h1 : e.dependedBy.foldl (fun acc dep => invalidateFuel f2 acc dep)
              (mapErase m d) = invalidateGo (mapErase m d) e.dependedBy :=
            ihn e.dependedBy f2 (mapErase m d) (by omega) (by omega)
          calc invalidateFuel (f2 + 1) m d
              = e.dependedBy.foldl (fun acc dep => invalidateFuel f2 acc dep)
                (mapErase m d) := by simp [invalidateFuel, hfind]
            _ = invalidateGo (mapErase m d) e.dependedBy := h1
            _ = invalidateGo m [d] := by
                rw [invalidateGo_cons_some _ _ _ _ hfind, List.append_nil]
        rw [hstep]
        have hsub : (invalidateGo m [d]).length ≤ m.length :=
          (invalidateGo_sublist _ _).length_le
        rw [ih (invalidateGo m [d]) (le_trans hsub hlen)]
        rw [← invalidateGo_append]
        rfl

theorem invalidateFuel_eq_go (f : Nat) (m : FileMap) (u : String)
    (hf : m.length < f) : invalidateFuel f m u = invalidateGo m [u] := by
  have h := foldl_fuel_go_aux m.length [u] f m (le_refl _) hf
  simpa using h

theorem dependedReach_erase_mono (m : FileMap) (k : String) {u v : String}
    (h : DependedReach (mapErase m k) u v) : DependedReach m u v := by
  induction h with
  | here hfind =>
    rename_i u2 e
    rw [mapFind_mapErase] at hfind
    by_cases hu : u2 = k
    · simp [hu] at hfind
    · rw [if_neg hu] at hfind
      exact DependedReach.here hfind
  | step hfind hmem hr ih =>
    rename_i u2 v2 w2 e
    rw [mapFind_mapErase] at hfind
    by_cases hu : u2 = k
    · simp [hu] at hfind
    · rw [if_neg hu] at hfind
      exact DependedReach.step hfind hmem ih

theorem dependedReach_decompose (m : FileMap) (k : String) {u v : String}
    (h : DependedReach m u v) :
    v = k ∨ DependedReach (mapErase m k) u v ∨
      (∃ e w, mapFind m k = some e ∧ w ∈ e.dependedBy ∧
        DependedReach (mapErase m k) w v) := by
  induction h with
  | here hfind =>
    rename_i u2 e
    by_cases hu : u2 = k
    · exact Or.inl hu
    · refine Or.inr (Or.inl (DependedReach.here (e := e) ?_))
      rw [mapFind_mapErase, if_neg hu]
      exact hfind
  | step hfind hmem hr ih =>
    rename_i u2 v2 w2 e
    rcases ih with hveq | hreach | hvia
    · exact Or.inl hveq
    · by_cases hu : u2 = k
      · exact Or.inr (Or.inr ⟨e, v2, hu ▸ hfind, hmem, hreach⟩)
      · refine Or.inr (Or.inl (DependedReach.step (e := e) ?_ hmem hreach))
        rw [mapFind_mapErase, if_neg hu]
        exact hfind
    · exact Or.inr (Or.inr hvia)

theorem invalidateGo_removes_aux :
    ∀ (n : Nat) (m : FileMap) (st : List String) (v : String), m.length ≤ n →
      (∃ u ∈ st, DependedReach m u v) → mapFind (invalidateGo m st) v = none := by
  intro n
  induction n with
  | zero =>
    intro m st v hlen hreach
    have hm : m = [] := List.eq_nil_of_length_eq_zero (Nat.le_zero.mp hlen)
    subst hm
    obtain ⟨u, _, hr⟩ := hreach
    cases hr with
    | here hfind => simp [mapFind] at hfind
    | step hfind _ _ => simp [mapFind] at hfind
  | succ n2 ihn =>
    intro m st v hlen hreach
    induction st with
    | nil =>
      obtain ⟨u, hu, _⟩ := hreach
      simp at hu
    | cons u0 rest ihst =>
      obtain ⟨u, hu, hr⟩ := hreach
      cases hfind : mapFind m u0 with
      | none =>
        rw [invalidateGo_cons_none _ _ _ hfind]
        apply ihst
        rcases List.mem_cons.mp hu with rfl | hmem
        · cases hr with
          | here hf => rw [hfind] at hf; cases hf
          | step hf _ _ => rw [hfind] at hf; cases hf
        · exact ⟨u, hmem, hr⟩
      | some e =>
        have hlt := mapErase_length_lt hfind
        rw [invalidateGo_cons_some _ _ _ _ hfind]
        rcases dependedReach_decompose m u0 hr with rfl | hreach2 | ⟨e2, w, hk, hw, hr2⟩
        · apply mapFind_none_of_sublist (invalidateGo_sublist _ _)
          rw [mapFind_mapErase]
          simp
        · rcases List.mem_cons.mp hu with rfl | hmem
          · cases hreach2 with
            | here hf => rw [mapFind_mapErase] at hf; simp at hf
            | step hf _ _ => rw [mapFind_mapErase] at hf; simp at hf
          · exact ihn _ _ _ (by omega) ⟨u, List.mem_append_right _ hmem, hreach2⟩
        · have he2 : e2 = e := by
            rw [hfind] at hk
            cases hk
            rfl
          subst he2
          exact ihn _ _ _ (by omega) ⟨w, List.mem_append_left _ hw, hr2⟩

theorem invalidateGo_removes (m : FileMap) (st : List String) (v : String)
    (h : ∃ u ∈ st, DependedReach m u v) : mapFind (invalidateGo m st) v = none :=
  invalidateGo_removes_aux m.length m st v (le_refl _) h

theorem invalidateGo_preserves_aux :
    ∀ (n : Nat) (m : FileMap) (st : List String) (v : String) (ev : FileIndexEntry),
      m.length ≤ n → mapFind m v = some ev →
      (∀ u ∈ st, ¬ DependedReach m u v) →
      mapFind (invalidateGo m st) v = some ev := by
  intro n
  induction n with
  | zero =>
    intro m st v ev hlen hfv _
    have hm : m = [] := List.eq_nil_of_length_eq_zero (Nat.le_zero.mp hlen)
    subst hm
    simp [mapFind] at hfv
  | succ n2 ihn =>
    intro m st v ev hlen hfv hnot
    induction st with
    | nil =>
      rw [invalidateGo_nil]
      exact hfv
    | cons u0 rest ihst =>
      cases hfind0 : mapFind m u0 with
      | none =>
        rw [invalidateGo_cons_none _ _ _ hfind0]
        exact ihst (fun u hu => hnot u (List.mem_cons_of_mem _ hu))
      | some e =>
        have hlt := mapErase_length_lt hfind0
        have hvne : ¬ v = u0 := by
          intro hveq
          subst hveq
          exact hnot v (List.mem_cons_self _ _) (DependedReach.here hfv)
        rw [invalidateGo_cons_some _ _ _ _ hfind0]
        apply ihn _ _ _ _ (by omega)
        · rw [mapFind_mapErase, if_neg hvne]
          exact hfv
        · intro u hu hr2
          have hrm : DependedReach m u v := dependedReach_erase_mono m u0 hr2
          rcases List.mem_append.mp hu with hdep | hrest
          · exact hnot u0 (List.mem_cons_self _ _) (DependedReach.step hfind0 hdep hrm)
          · exact hnot u (List.mem_cons_of_mem _ hrest) hrm

theorem invalidateGo_preserves (m : FileMap) (st : List String) (v : String)
    (ev : FileIndexEntry) (hfv : mapFind m v = some ev)
    (hnot : ∀ u ∈ st, ¬ DependedReach m u v) :
    mapFind (invalidateGo m st) v = some ev :=
  invalidateGo_preserves_aux m.length m st v ev (le_refl _) hfv hnot

/-- C2: the invalidation cascade, run with any fuel exceeding the map size,
is fuel-independent (so the unbounded source recursion terminates even on a
cyclic dependedBy graph), only ever deletes entries (each at most once, since
the result is a sublist of the index), and deletes exactly the start entry
together with every live entry transitively listed via dependedBy. -/
theorem invalidateFile_cascade (m : FileMap) (u : String) (f1 f2 : Nat)
    (h1 : m.length < f1) (h2 : m.length < f2) :
    invalidateFuel f1 m u = invalidateFuel f2 m u
    ∧ (invalidateFuel f1 m u).Sublist m
    ∧ ∀ v, mapFind (invalidateFuel f1 m u) v = none ↔
        (mapFind m v = none ∨ DependedReach m u v) := by
  have e1 := invalidateFuel_eq_go f1 m u h1
  have e2 := invalidateFuel_eq_go f2 m u h2
  refine ⟨e1.trans e2.symm, ?_, ?_⟩
  · rw [e1]
    exact invalidateGo_sublist m [u]
  · intro v
    rw [e1]
    constructor
    · intro hnone
      cases hfv : mapFind m v with
      | none => exact Or.inl rfl
      | some ev =>
        right
        by_contra hnr
        have hpres := invalidateGo_preserves m [u] v ev hfv
          (fun u2 hu2 => by
            rcases List.mem_singleton.mp hu2 with rfl
            exact hnr)
        rw [hpres] at hnone
        cases hnone
    · intro h
      rcases h with hnone | hreach
      · exact mapFind_none_of_sublist (invalidateGo_sublist m [u]) hnone
      · exact invalidateGo_removes m [u] v ⟨u, List.mem_singleton_self u, hreach⟩

/-- Witness for C2 on the concrete cyclic graph cyc3: the cascade starting at
A stabilizes from fuel four on, is a sublist of the index, satisfies the
removal characterization, and concretely empties the cyclic index, deleting
each of the three cycle members exactly once. -/
theorem invalidateFile_cascade_witness :
    (invalidateFuel 4 cyc3 "A" = invalidateFuel 5 cyc3 "A"
      ∧ (invalidateFuel 4 cyc3 "A").Sublist cyc3
      ∧ ∀ v, mapFind (invalidateFuel 4 cyc3 "A") v = none ↔
          (mapFind cyc3 v = none ∨ DependedReach cyc3 "A" v))
    ∧ invalidateFuel 4 cyc3 "A" = [] :=
  ⟨invalidateFile_cascade cyc3 "A" 4 5 (by decide) (by decide), by decide⟩

-- Reverse-dependency rebuild: characterization of buildDependencyGraph.

theorem mapFind_pushDependedBy (m : FileMap) (k src q : String) :
    mapFind (pushDependedBy m k src) q =
      if q = k then
        (mapFind m q).map (fun e => { e with dependedBy := e.dependedBy ++ [src] })
      else mapFind m q := by
  induction m with
  | nil => by_cases hq : q = k <;> simp [pushDependedBy, mapFind, hq]
  | cons p rest ih =>
    simp only [pushDependedBy, List.map_cons] at ih ⊢
    by_cases hpk : p.1 = k
    · by_cases hpq : p.1 = q
      · have hqk : q = k := hpq.symm.trans hpk
        simp [mapFind, hpk, hpq, hqk]
      · have hqk : ¬ q = k := fun hc => hpq (hpk.trans hc.symm)
        have hkq : ¬ k = q := fun hc => hqk hc.symm
        simp only [mapFind, hpk, if_pos, ih]
        simp [hqk, hkq, hpq, mapFind]
    · by_cases hpq : p.1 = q
      · have hqk : ¬ q = k := fun hc => hpk (hpq.trans hc)
        simp [mapFind, hpk, hpq, hqk]
      · simp only [mapFind, hpk, if_neg, not_false_iff, if_neg hpq]
        rw [ih]

theorem mapFind_addEdges (deps : List String) (src : String) (acc : FileMap) (q : String) :
    mapFind (deps.foldl (fun a d => pushDependedBy a d src) acc) q =
      (mapFind acc q).map
        (fun e => { e with dependedBy :=
          e.dependedBy ++ (deps.filter (fun d => decide (d = q))).map (fun _ => src) }) := by
  induction deps generalizing acc with
  | nil =>
    rcases h : mapFind acc q with _ | e
    · simp [h]
    · cases e
      simp [h]
  | cons d ds ih =>
    rw [List.foldl_cons, ih, mapFind_pushDependedBy]
    by_cases hqd : q = d
    · subst hqd
      rcases h : mapFind acc q with _ | e
      · simp [h]
      · cases e
        simp [h, List.filter_cons, List.append_assoc]
    · have hdq : ¬ d = q := fun hc => hqd hc.symm
      rcases h : mapFind acc q with _ | e
      · simp [hqd, h]
      · cases e
        simp [hqd, h, List.filter_cons, hdq]

theorem mapFind_buildFold (entries : List (String × FileIndexEntry)) (acc : FileMap)
    (q : String) :
    mapFind
      (entries.foldl
        (fun a p => p.2.dependsOn.foldl (fun a2 dep => pushDependedBy a2 dep p.2.uri) a)
        acc) q
    = (mapFind acc q).map
        (fun e => { e with dependedBy := e.dependedBy ++ collectEdges entries q }) := by
  induction entries generalizing acc with
  | nil =>
    rcases h : mapFind acc q with _ | e
    · simp [h, collectEdges]
    · cases e
      simp [h, collectEdges]
  | cons p rest ih =>
    rw [List.foldl_cons, ih, mapFind_addEdges]
    rcases h : mapFind acc q with _ | e
    · simp [h]
    · cases e
      simp [h, collectEdges, List.append_assoc]

theorem mapFind_clearDependedBy (m : FileMap) (q : String) :
    mapFind (clearDependedBy m) q
    = (mapFind m q).map (fun e => { e with dependedBy := [] }) := by
  induction m with
  | nil => simp [clearDependedBy, mapFind]
  | cons p rest ih =>
    simp only [clearDependedBy, List.map_cons] at ih ⊢
    by_cases hpq : p.1 = q
    · simp [mapFind, hpq]
    · simp only [mapFind, hpq, if_neg, not_false_iff]
      exact ih

theorem collectEdges_clearDependedBy (m : FileMap) (q : String) :
    collectEdges (clearDependedBy m) q = collectEdges m q := by
  induction m with
  | nil => simp [clearDependedBy, collectEdges]
  | cons p rest ih =>
    simp only [clearDependedBy, collectEdges, List.map_cons, List.flatMap_cons] at ih ⊢
    rw [ih]

theorem mapFind_buildDependencyGraph (m : FileMap) (q : String) :
    mapFind (buildDependencyGraph m) q
    = (mapFind m q).map (fun e => { e with dependedBy := collectEdges m q }) := by
  unfold buildDependencyGraph
  rw [mapFind_buildFold, mapFind_clearDependedBy, collectEdges_clearDependedBy]
  rcases h : mapFind m q with _ | e
  · simp [h]
  · cases e
    simp [h]

theorem mem_collectEdges (entries : List (String × FileIndexEntry)) (q u : String) :
    u ∈ collectEdges entries q ↔ ∃ p ∈ entries, p.2.uri = u ∧ q ∈ p.2.dependsOn := by
  simp only [collectEdges, List.mem_flatMap, List.mem_map, List.mem_filter,
    decide_eq_true_eq]
  constructor
  · rintro ⟨p, hp, d, ⟨hd, rfl⟩, rfl⟩
    exact ⟨p, hp, rfl, hd⟩
  · rintro ⟨p, hp, rfl, hq⟩
    exact ⟨p, hp, q, ⟨hq, rfl⟩, rfl⟩

theorem keys_pushDependedBy (m : FileMap) (k src : String) :
    (pushDependedBy m k src).map Prod.fst = m.map Prod.fst := by
  induction m with
  | nil => simp [pushDependedBy]
  | cons p rest ih =>
    simp only [pushDependedBy, List.map_cons] at ih ⊢
    by_cases hp : p.1 = k
    · simp only [hp, if_pos]
      rw [ih]
    · simp only [hp, if_neg, not_false_iff]
      rw [ih]

theorem keys_addEdges (deps : List String) (src : String) (acc : FileMap) :
    (deps.foldl (fun a d => pushDependedBy a d src) acc).map Prod.fst
    = acc.map Prod.fst := by
  induction deps generalizing acc with
  | nil => simp
  | cons d ds ih =>
    rw [List.foldl_cons, ih, keys_pushDependedBy]

theorem keys_buildFold (entries : List (String × FileIndexEntry)) (acc : FileMap) :
    (entries.foldl
      (fun a p => p.2.dependsOn.foldl (fun a2 dep => pushDependedBy a2 dep p.2.uri) a)
      acc).map Prod.fst
    = acc.map Prod.fst := by
  induction entries generalizing acc with
  | nil => simp
  | cons p rest ih =>
    rw [List.foldl_cons, ih, keys_addEdges]

theorem keys_clearDependedBy (m : FileMap) :
    (clearDependedBy m).map Prod.fst = m.map Prod.fst := by
  induction m with
  | nil => simp [clearDependedBy]
  | cons p rest ih =>
    simp only [clearDependedBy, List.map_cons] at ih ⊢
    rw [ih]

theorem keys_buildDependencyGraph (m : FileMap) :
    (buildDependencyGraph m).map Prod.fst = m.map Prod.fst := by
  unfold buildDependencyGraph
  rw [keys_buildFold, keys_clearDependedBy]

theorem mapFind_of_mem_nodup {α : Type} {m : List (String × α)}
    (hnd : mapNodup m) {p : String × α} (hp : p ∈ m) : mapFind m p.1 = some p.2 := by
  induction m with
  | nil => simp at hp
  | cons q rest ih =>
    rcases List.mem_cons.mp hp with rfl | hmem
    · simp [mapFind]
    · have hnd2 : mapNodup rest := by
        unfold mapNodup at hnd ⊢
        simp only [List.map_cons, List.nodup_cons] at hnd
        exact hnd.2
      have hne : ¬ q.1 = p.1 := by
        unfold mapNodup at hnd
        simp only [List.map_cons, List.nodup_cons] at hnd
        intro hc
        exact hnd.1 (hc ▸ List.mem_map_of_mem Prod.fst hmem)
      rw [mapFind, if_neg hne]
      exact ih hnd2 hmem

/-- Counterexample to C1 as stated: after the reverse-dependency rebuild of
the two-file workspace (A imports B), deleting A through the invalidation
cascade leaves B live with A's URI still in its dependedBy list, although A
is no longer in the live file index — the operations following the rebuild do
not maintain the no-dead-source part of the invariant. -/
theorem dependedBy_dead_edge_counterexample :
    ∃ p ∈ invalidateFuel 3 (buildDependencyGraph scanMapAB) (uriRender uriA),
      ∃ u ∈ p.2.dependedBy,
        mapFind (invalidateFuel 3 (buildDependencyGraph scanMapAB) (uriRender uriA)) u
          = none := by
  decide

/-- C1 amended: immediately after buildDependencyGraph, for all live entries
D and E, D's uri appears in E.dependedBy exactly when E's uri appears in
D.dependsOn, and every dependedBy element is the key of a live entry. (The
original claim also asserted that later operations maintain this; the
counterexample shows a delete cascade leaves a dead source in dependedBy.) -/
theorem buildDependencyGraph_transpose (m : FileMap)
    (hnd : mapNodup m) (hku : ∀ p ∈ m, p.2.uri = p.1) :
    (∀ dk ek d e,
      mapFind (buildDependencyGraph m) dk = some d →
      mapFind (buildDependencyGraph m) ek = some e →
      (d.uri ∈ e.dependedBy ↔ e.uri ∈ d.dependsOn))
    ∧ (∀ p ∈ buildDependencyGraph m, ∀ u ∈ p.2.dependedBy,
        ∃ q ∈ buildDependencyGraph m, q.1 = u) := by
  have hchar := mapFind_buildDependencyGraph m
  constructor
  · intro dk ek d e hd he
    rw [hchar] at hd he
    cases hd0 : mapFind m dk with
    | none => rw [hd0] at hd; cases hd
    | some d0 =>
    cases he0 : mapFind m ek with
    | none => rw [he0] at he; cases he
    | some e0 =>
    rw [hd0] at hd
    rw [he0] at he
    simp only [Option.map_some'] at hd he
    have hdmem := mapFind_mem hd0
    have hemem := mapFind_mem he0
    have hduri : d0.uri = dk := hku _ hdmem
    have heuri : e0.uri = ek := hku _ hemem
    injection hd with hd2
    injection he with he2
    subst hd2
    subst he2
    simp only [heuri, hduri]
    rw [mem_collectEdges]
    constructor
    · rintro ⟨p, hp, hpuri, hpdep⟩
      have hpk : p.1 = dk := (hku _ hp) ▸ hpuri
      have : mapFind m p.1 = some p.2 := mapFind_of_mem_nodup hnd hp
      rw [hpk, hd0] at this
      cases this
      exact hpdep
    · intro hmem
      exact ⟨(dk, d0), hdmem, hduri, hmem⟩
  · intro p hp u hu
    have hndb : mapNodup (buildDependencyGraph m) := by
      unfold mapNodup
      rw [keys_buildDependencyGraph]
      exact hnd
    have hfind := mapFind_of_mem_nodup hndb hp
    rw [hchar] at hfind
    cases h0 : mapFind m p.1 with
    | none => rw [h0] at hfind; cases hfind
    | some e0 =>
    rw [h0] at hfind
    simp only [Option.map_some'] at hfind
    have hdb : p.2.dependedBy = collectEdges m p.1 := by
      injection hfind with hfind2
      rw [← hfind2]
    rw [hdb, mem_collectEdges] at hu
    obtain ⟨q, hq, hquri, _⟩ := hu
    have hqk : q.1 = u := (hku _ hq) ▸ hquri
    have : u ∈ (buildDependencyGraph m).map Prod.fst := by
      rw [keys_buildDependencyGraph]
      exact hqk ▸ List.mem_map_of_mem Prod.fst hq
    obtain ⟨r, hr, hru⟩ := List.mem_map.mp this
    exact ⟨r, hr, hru⟩

/-- Witness for the amended C1 on the concrete two-file scan map. -/
theorem buildDependencyGraph_transpose_witness :
    mapNodup scanMapAB
    ∧ ((∀ dk ek d e,
        mapFind (buildDependencyGraph scanMapAB) dk = some d →
        mapFind (buildDependencyGraph scanMapAB) ek = some e →
        (d.uri ∈ e.dependedBy ↔ e.uri ∈ d.dependsOn))
      ∧ (∀ p ∈ buildDependencyGraph scanMapAB, ∀ u ∈ p.2.dependedBy,
          ∃ q ∈ buildDependencyGraph scanMapAB, q.1 = u)) :=
  ⟨show (List.map Prod.fst scanMapAB).Nodup by decide,
   buildDependencyGraph_transpose scanMapAB
     (show (List.map Prod.fst scanMapAB).Nodup by decide) (by decide)⟩

-- Module resolution (C4): first-match characterization of find?.

theorem find?_decomposition {α : Type} (p : α → Bool) (l : List α) (x : α) :
    l.find? p = some x ↔
      p x = true ∧ ∃ pre post, l = pre ++ x :: post ∧ ∀ q ∈ pre, p q = false := by
  induction l with
  | nil =>
    simp only [List.find?_nil]
    constructor
    · intro h
      cases h
    · rintro ⟨_, pre, post, hdec, _⟩
      cases pre <;> simp at hdec
  | cons a rest ih =>
    by_cases ha : p a = true
    · rw [List.find?_cons_of_pos _ ha]
      constructor
      · intro h
        cases h
        exact ⟨ha, [], rest, rfl, by simp⟩
      · rintro ⟨hx, pre, post, hdec, hpre⟩
        cases pre with
        | nil =>
          simp at hdec
          rw [hdec.1]
        | cons b pre2 =>
          simp only [List.cons_append, List.cons.injEq] at hdec
          have : p a = false := hdec.1 ▸ hpre b (List.mem_cons_self _ _)
          rw [this] at ha
          cases ha
    · have ha2 : p a = false := by
        cases h : p a
        · rfl
        · rw [h] at ha
          exact absurd rfl ha
      rw [List.find?_cons_of_neg _ (by simp [ha2])]
      rw [ih]
      constructor
      · rintro ⟨hx, pre, post, hdec, hpre⟩
        refine ⟨hx, a :: pre, post, by simp [hdec], ?_⟩
        intro q hq
        rcases List.mem_cons.mp hq with rfl | hmem
        · exact ha2
        · exact hpre q hmem
      · rintro ⟨hx, pre, post, hdec, hpre⟩
        cases pre with
        | nil =>
          simp only [List.nil_append, List.cons.injEq] at hdec
          rw [hdec.1] at ha2
          rw [ha2] at hx
          cases hx
        | cons b pre2 =>
          simp only [List.cons_append, List.cons.injEq] at hdec
          refine ⟨hx, pre2, post, hdec.2, ?_⟩
          intro q hq
          exact hpre q (List.mem_cons_of_mem _ hq)

/-- C4: resolveModule returns the exact-key entry when the name is a key;
otherwise it returns the first registry entry, in iteration order, whose name
suffix-matches (trailing dot-segments, as many as the requested name has),
null when none matches, and, the registry unchanged, repeated calls agree. -/
theorem resolveModule_resolution (modules : ModuleMap) (name : String) :
    (∀ m, mapFind modules name = some m → resolveModule modules name = some m)
    ∧ (mapFind modules name = none →
        ∀ m, (resolveModule modules name = some m ↔
          ∃ pre p post, modules = pre ++ p :: post ∧ matchesModuleName p.1 name = true
            ∧ (∀ q ∈ pre, matchesModuleName q.1 name = false) ∧ m = p.2))
    ∧ ((mapFind modules name = none ∧ ∀ q ∈ modules, matchesModuleName q.1 name = false) →
        resolveModule modules name = none)
    ∧ (∀ r1 r2 : Option QmlModule, resolveModule modules name = r1 →
        resolveModule modules name = r2 → r1 = r2) := by
  refine ⟨?_, ?_, ?_, ?_⟩
  · intro m h
    unfold resolveModule
    rw [h]
  · intro hnone m
    unfold resolveModule
    rw [hnone]
    cases hf : modules.find? (fun p => matchesModuleName p.1 name) with
    | none =>
      simp only []
      constructor
      · intro h
        cases h
      · rintro ⟨pre, p, post, hdec, hmatch, hpre, rfl⟩
        have : modules.find? (fun p => matchesModuleName p.1 name) = some p := by
          rw [find?_decomposition]
          exact ⟨hmatch, pre, post, hdec, hpre⟩
        rw [hf] at this
        cases this
    | some p0 =>
      simp only [Option.some.injEq]
      constructor
      · intro h
        subst h
        rw [find?_decomposition] at hf
        obtain ⟨hmatch, pre, post, hdec, hpre⟩ := hf
        exact ⟨pre, p0, post, hdec, hmatch, hpre, rfl⟩
      · rintro ⟨pre, p, post, hdec, hmatch, hpre, rfl⟩
        have : modules.find? (fun p => matchesModuleName p.1 name) = some p := by
          rw [find?_decomposition]
          exact ⟨hmatch, pre, post, hdec, hpre⟩
        rw [hf] at this
        cases this
        rfl
  · rintro ⟨hnone, hall⟩
    unfold resolveModule
    rw [hnone]
    cases hf : modules.find? (fun p => matchesModuleName p.1 name) with
    | none => rfl
    | some p0 =>
      have hmem := List.mem_of_find?_eq_some hf
      have hp := List.find?_some hf
      rw [hall p0 hmem] at hp
      cases hp
  · intro r1 r2 h1 h2
    rw [← h1, ← h2]

/-- Witness for C4: with only Foo.Bar.Baz registered, resolving Baz returns
the Foo.Bar.Baz entry through the suffix-match branch. -/
theorem resolveModule_resolution_witness :
    resolveModule [("Foo.Bar.Baz", fooBarBazModule)] "Baz" = some fooBarBazModule :=
  (((resolveModule_resolution [("Foo.Bar.Baz", fooBarBazModule)] "Baz").2.1
      (by decide)) fooBarBazModule).mpr
    ⟨[], ("Foo.Bar.Baz", fooBarBazModule), [], rfl, by decide, by simp, rfl⟩

-- Empty-manifest rule (C5).

theorem qmldirScanStep_no_components (dir : List String) :
    ∀ (entries : List QmldirEntry) (s : String),
      (∀ e ∈ entries, ¬ e.type = QmldirEntryType.component
        ∧ ¬ e.type = QmldirEntryType.singleton) →
      (entries.foldl (qmldirScanStep dir) (s, [])).2 = [] := by
  intro entries
  induction entries with
  | nil => intro s _; rfl
  | cons e rest ih =>
    intro s h
    have he := h e (List.mem_cons_self _ _)
    have hstep : ∃ s2, qmldirScanStep dir (s, []) e = (s2, []) := by
      unfold qmldirScanStep
      by_cases h1 : e.type = QmldirEntryType.moduleDecl ∧ strTruthy e.moduleName = true
          ∧ ¬ strTruthy e.typeName = true
      · rw [if_pos h1]
        exact ⟨e.moduleName.getD "", rfl⟩
      · rw [if_neg h1]
        by_cases h2 : e.type = QmldirEntryType.component ∧ strTruthy e.typeName = true
            ∧ strTruthy e.filePath = true
        · exact absurd h2.1 he.1
        · rw [if_neg h2]
          by_cases h3 : e.type = QmldirEntryType.singleton ∧ strTruthy e.typeName = true
              ∧ strTruthy e.filePath = true
          · exact absurd h3.1 he.2
          · rw [if_neg h3]
            exact ⟨s, rfl⟩
    obtain ⟨s2, hs2⟩ := hstep
    rw [List.foldl_cons, hs2]
    exact ih s2 (fun e2 he2 => h e2 (List.mem_cons_of_mem _ he2))

/-- C5: indexing a manifest whose parsed directives contain no component and
no singleton declaration registers no module: the registry is unchanged,
nothing is handed to the store, and the call reports nothing new. -/
theorem indexQmldir_empty_manifest (modules : ModuleMap) (qmldirFsPath : String)
    (moduleDir : List String) (content : String)
    (h : ∀ e ∈ parseQmldir content,
      ¬ e.type = QmldirEntryType.component ∧ ¬ e.type = QmldirEntryType.singleton) :
    indexQmldir modules qmldirFsPath moduleDir content = (modules, none, false) := by
  unfold indexQmldir
  by_cases hdup : modules.any (fun p => p.2.qmldirPath = some qmldirFsPath)
  · rw [if_pos hdup]
  · rw [if_neg hdup]
    have hempty := qmldirScanStep_no_components moduleDir (parseQmldir content) "" h
    simp only [hempty]
    rfl

/-- Witness for C5 on a manifest holding only a module line, a two-token
plugin line and a comment. -/
theorem indexQmldir_empty_manifest_witness :
    indexQmldir [] "/ws/Empty/qmldir" ["ws", "Empty"] emptyManifest = ([], none, false) :=
  indexQmldir_empty_manifest [] "/ws/Empty/qmldir" ["ws", "Empty"] emptyManifest (by decide)

-- Manifest metadata lines (C8).

/-- Counterexample to C8 as stated: in ModuleIndexer.parseQmldir a three-token
depends line is parsed as a component declaration named depends, and
indexQmldir puts it into the resulting module's components map. -/
theorem qmldir_metadata_counterexample :
    ∃ m, (indexQmldir [] "/ws/M/qmldir" ["ws", "M"] dependsManifest).2.1 = some m
      ∧ ¬ mapFind m.components "depends" = none := by
  decide

/-- C8 amended: ModuleExtractor.parseLine turns depends, import, plugin,
classname and typeinfo lines into metadata records of their own directive
kind and never into component or singleton records; ModuleIndexer.parseQmldir
has no such keywords: a line headed by one of them parses as a component
declaration named after the keyword when it has at least three tokens (and
such a component does then enter the components map, as the counterexample
shows), and is dropped otherwise. -/
theorem qmldir_metadata_lines (line : String) (kw : String)
    (hkw : kw ∈ ["depends", "import", "plugin", "classname", "typeinfo"])
    (hhead : (strSplitWs line).head? = some kw) :
    (∀ e, parseLine line = some e →
      (e.type = QmldirEntryType.dependsDecl ∨ e.type = QmldirEntryType.importDecl
        ∨ e.type = QmldirEntryType.pluginDecl ∨ e.type = QmldirEntryType.classnameDecl
        ∨ e.type = QmldirEntryType.typeinfoDecl)
      ∧ ¬ e.type = QmldirEntryType.component ∧ ¬ e.type = QmldirEntryType.singleton)
    ∧ (3 ≤ (strSplitWs line).length →
        ∃ e, parseQmldirLine line = some e ∧ e.type = QmldirEntryType.component
          ∧ e.typeName = some kw)
    ∧ ((strSplitWs line).length < 3 → parseQmldirLine line = none) := by
  obtain ⟨rest, hparts⟩ : ∃ rest, strSplitWs line = kw :: rest := by
    cases h : strSplitWs line with
    | nil => rw [h] at hhead; cases hhead
    | cons a r =>
      rw [h] at hhead
      simp only [List.head?_cons, Option.some.injEq] at hhead
      exact ⟨r, by rw [hhead]⟩
  simp only [List.mem_cons, List.not_mem_nil, or_false] at hkw
  rcases hkw with rfl | rfl | rfl | rfl | rfl
  · refine ⟨?_, ?_, ?_⟩
    · intro e he
      simp only [parseLine, hparts] at he
      rw [if_neg (by decide : ¬ ("depends" : String) = "module"),
        if_neg (by decide : ¬ ("depends" : String) = "singleton"),
        if_neg (by decide : ¬ ("depends" : String) = "typeinfo"),
        if_neg (by decide : ¬ ("depends" : String) = "plugin"),
        if_neg (by decide : ¬ ("depends" : String) = "classname"),
        if_pos trivial] at he
      split at he
      · injection he with he2
        subst he2
        exact ⟨by simp, by simp, by simp⟩
      · exact Option.noConfusion he
    · intro hlen
      rw [hparts] at hlen
      have hns : ¬ (("depends" : String) = "singleton" ∧ 4 ≤ ("depends" :: rest).length) :=
        fun hcon => absurd hcon.1 (by decide)
      simp only [parseQmldirLine, hparts]
      rw [if_neg (by decide : ¬ ("depends" : String) = "module"), if_neg hns, if_pos hlen]
      exact ⟨_, rfl, rfl, by simp⟩
    · intro hlen
      rw [hparts] at hlen
      have hns : ¬ (("depends" : String) = "singleton" ∧ 4 ≤ ("depends" :: rest).length) :=
        fun hcon => absurd hcon.1 (by decide)
      simp only [parseQmldirLine, hparts]
      rw [if_neg (by decide : ¬ ("depends" : String) = "module"), if_neg hns,
        if_neg (by omega : ¬ 3 ≤ ("depends" :: rest).length)]
  · refine ⟨?_, ?_, ?_⟩
    · intro e he
      simp only [parseLine, hparts] at he
      rw [if_neg (by decide : ¬ ("import" : String) = "module"),
        if_neg (by decide : ¬ ("import" : String) = "singleton"),
        if_neg (by decide : ¬ ("import" : String) = "typeinfo"),
        if_neg (by decide : ¬ ("import" : String) = "plugin"),
        if_neg (by decide : ¬ ("import" : String) = "classname"),
        if_neg (by decide : ¬ ("import" : String) = "depends"),
        if_pos trivial] at he
      split at he
      · injection he with he2
        subst he2
        exact ⟨by simp, by simp, by simp⟩
      · exact Option.noConfusion he
    · intro hlen
      rw [hparts] at hlen
      have hns : ¬ (("import" : String) = "singleton" ∧ 4 ≤ ("import" :: rest).length) :=
        fun hcon => absurd hcon.1 (by decide)
      simp only [parseQmldirLine, hparts]
      rw [if_neg (by decide : ¬ ("import" : String) = "module"), if_neg hns, if_pos hlen]
      exact ⟨_, rfl, rfl, by simp⟩
    · intro hlen
      rw [hparts] at hlen
      have hns : ¬ (("import" : String) = "singleton" ∧ 4 ≤ ("import" :: rest).length) :=
        fun hcon => absurd hcon.1 (by decide)
      simp only [parseQmldirLine, hparts]
      rw [if_neg (by decide : ¬ ("import" : String) = "module"), if_neg hns,
        if_neg (by omega : ¬ 3 ≤ ("import" :: rest).length)]
  · refine ⟨?_, ?_, ?_⟩
    · intro e he
      simp only [parseLine, hparts] at he
      rw [if_neg (by decide : ¬ ("plugin" : String) = "module"),
        if_neg (by decide : ¬ ("plugin" : String) = "singleton"),
        if_neg (by decide : ¬ ("plugin" : String) = "typeinfo"),
        if_pos trivial] at he
      injection he with he2
      subst he2
      exact ⟨by simp, by simp, by simp⟩
    · intro hlen
      rw [hparts] at hlen
      have hns : ¬ (("plugin" : String) = "singleton" ∧ 4 ≤ ("plugin" :: rest).length) :=
        fun hcon => absurd hcon.1 (by decide)
      simp only [parseQmldirLine, hparts]
      rw [if_neg (by decide : ¬ ("plugin" : String) = "module"), if_neg hns, if_pos hlen]
      exact ⟨_, rfl, rfl, by simp⟩
    · intro hlen
      rw [hparts] at hlen
      have hns : ¬ (("plugin" : String) = "singleton" ∧ 4 ≤ ("plugin" :: rest).length) :=
        fun hcon => absurd hcon.1 (by decide)
      simp only [parseQmldirLine, hparts]
      rw [if_neg (by decide : ¬ ("plugin" : String) = "module"), if_neg hns,
        if_neg (by omega : ¬ 3 ≤ ("plugin" :: rest).length)]
  · refine ⟨?_, ?_, ?_⟩
    · intro e he
      simp only [parseLine, hparts] at he
      rw [if_neg (by decide : ¬ ("classname" : String) = "module"),
        if_neg (by decide : ¬ ("classname" : String) = "singleton"),
        if_neg (by decide : ¬ ("classname" : String) = "typeinfo"),
        if_neg (by decide : ¬ ("classname" : String) = "plugin"),
        if_pos trivial] at he
      injection he with he2
      subst he2
      exact ⟨by simp, by simp, by simp⟩
    · intro hlen
      rw [hparts] at hlen
      have hns : ¬ (("classname" : String) = "singleton" ∧ 4 ≤ ("classname" :: rest).length) :=
        fun hcon => absurd hcon.1 (by decide)
      simp only [parseQmldirLine, hparts]
      rw [if_neg (by decide : ¬ ("classname" : String) = "module"), if_neg hns, if_pos hlen]
      exact ⟨_, rfl, rfl, by simp⟩
    · intro hlen
      rw [hparts] at hlen
      have hns : ¬ (("classname" : String) = "singleton" ∧ 4 ≤ ("classname" :: rest).length) :=
        fun hcon => absurd hcon.1 (by decide)
      simp only [parseQmldirLine, hparts]
      rw [if_neg (by decide : ¬ ("classname" : String) = "module"), if_neg hns,
        if_neg (by omega : ¬ 3 ≤ ("classname" :: rest).length)]
  · refine ⟨?_, ?_, ?_⟩
    · intro e he
      simp only [parseLine, hparts] at he
      rw [if_neg (by decide : ¬ ("typeinfo" : String) = "module"),
        if_neg (by decide : ¬ ("typeinfo" : String) = "singleton"),
        if_pos trivial] at he
      injection he with he2
      subst he2
      exact ⟨by simp, by simp, by simp⟩
    · intro hlen
      rw [hparts] at hlen
      have hns : ¬ (("typeinfo" : String) = "singleton" ∧ 4 ≤ ("typeinfo" :: rest).length) :=
        fun hcon => absurd hcon.1 (by decide)
      simp only [parseQmldirLine, hparts]
      rw [if_neg (by decide : ¬ ("typeinfo" : String) = "module"), if_neg hns, if_pos hlen]
      exact ⟨_, rfl, rfl, by simp⟩
    · intro hlen
      rw [hparts] at hlen
      have hns : ¬ (("typeinfo" : String) = "singleton" ∧ 4 ≤ ("typeinfo" :: rest).length) :=
        fun hcon => absurd hcon.1 (by decide)
      simp only [parseQmldirLine, hparts]
      rw [if_neg (by decide : ¬ ("typeinfo" : String) = "module"), if_neg hns,
        if_neg (by omega : ¬ 3 ≤ ("typeinfo" :: rest).length)]

/-- Witness for the amended C8 on the concrete line depends QtQuick 2.15. -/
theorem qmldir_metadata_lines_witness :
    ∃ e, parseQmldirLine "depends QtQuick 2.15" = some e
      ∧ e.type = QmldirEntryType.component ∧ e.typeName = some "depends" :=
  (qmldir_metadata_lines "depends QtQuick 2.15" "depends" (by decide) (by decide)).2.1
    (by decide)

-- Module-name inference (C9).

theorem findIdx?_none_of_all {α : Type} (p : α → Bool) (l : List α)
    (h : ∀ x ∈ l, p x = false) : l.findIdx? p = none := by
  induction l with
  | nil => simp
  | cons a rest ih =>
    simp [List.findIdx?_cons, h a (List.mem_cons_self _ _),
      ih (fun x hx => h x (List.mem_cons_of_mem _ hx))]

theorem findIdx?_first_hit {α : Type} (p : α → Bool) (pre post : List α) (x : α)
    (hpre : ∀ q ∈ pre, p q = false) (hx : p x = true) :
    (pre ++ x :: post).findIdx? p = some pre.length := by
  induction pre with
  | nil => simp [List.findIdx?_cons, hx]
  | cons a pre2 ih =>
    simp [List.findIdx?_cons, hpre a (List.mem_cons_self _ _),
      ih (fun q hq => hpre q (List.mem_cons_of_mem _ hq))]

/-- Counterexample to C9 as stated: for a workspace-relative directory a/b
with no root marker on the path, inferModuleName yields the dotted relative
path a.b, not the directory basename b the claim promises. -/
theorem inferModuleName_counterexample :
    ¬ inferModuleName [["ws"]] defaultRootMarkers ["ws", "a", "b"]
        = baseName ["ws", "a", "b"] := by
  decide

theorem inferModuleNameLoop_no_prefix (markers : List String) (dir : List String) :
    ∀ folders : List (List String), (∀ w ∈ folders, dir.take w.length ≠ w) →
    inferModuleNameLoop markers dir folders = baseName dir := by
  intro folders
  induction folders with
  | nil => intro _; rfl
  | cons w rest ih =>
    intro h
    simp only [inferModuleNameLoop]
    rw [if_neg (h w (List.mem_cons_self _ _))]
    exact ih (fun x hx => h x (List.mem_cons_of_mem _ hx))

theorem qmldirScanStep_fst (moduleDir : List String)
    (acc : String × List (String × Component)) (e : QmldirEntry)
    (h : ¬ (e.type = QmldirEntryType.moduleDecl ∧ strTruthy e.moduleName = true
      ∧ ¬ strTruthy e.typeName = true)) :
    (qmldirScanStep moduleDir acc e).1 = acc.1 := by
  unfold qmldirScanStep
  rw [if_neg h]
  split_ifs <;> rfl

theorem qmldirScan_fold_fst (moduleDir : List String) (entries : List QmldirEntry)
    (h : ∀ e ∈ entries, ¬ (e.type = QmldirEntryType.moduleDecl
      ∧ strTruthy e.moduleName = true ∧ ¬ strTruthy e.typeName = true)) :
    ∀ acc, (entries.foldl (qmldirScanStep moduleDir) acc).1 = acc.1 := by
  induction entries with
  | nil => intro acc; rfl
  | cons e rest ih =>
    intro acc
    rw [List.foldl_cons, ih (fun x hx => h x (List.mem_cons_of_mem _ hx)),
      qmldirScanStep_fst moduleDir acc e (h e (List.mem_cons_self _ _))]

theorem indexQmldir_name_of_no_module (modules : ModuleMap) (qfs : String)
    (moduleDir : List String) (content : String) (m : QmlModule)
    (hno : ∀ e ∈ parseQmldir content,
      ¬ (e.type = QmldirEntryType.moduleDecl ∧ strTruthy e.moduleName = true
        ∧ ¬ strTruthy e.typeName = true))
    (hsome : (indexQmldir modules qfs moduleDir content).2.1 = some m) :
    m.name = baseName moduleDir := by
  have hname : ((parseQmldir content).foldl (qmldirScanStep moduleDir) ("", [])).1 = "" :=
    qmldirScan_fold_fst moduleDir (parseQmldir content) hno ("", [])
  by_cases hdup : modules.any (fun p => p.2.qmldirPath = some qfs) = true
  · simp only [indexQmldir, if_pos hdup] at hsome
    exact absurd hsome (by simp)
  · simp only [indexQmldir, if_neg hdup] at hsome
    rw [hname] at hsome
    rw [if_pos rfl] at hsome
    by_cases hlen :
        0 < ((parseQmldir content).foldl (qmldirScanStep moduleDir) ("", [])).2.length
    · rw [if_pos hlen] at hsome
      injection hsome with h2
      rw [← h2]
    · rw [if_neg hlen] at hsome
      exact absurd hsome (by simp)

/-- C9 amended: inside a workspace folder, when the first root marker on the
relative path exists and is not its last segment the name is the segments
after the marker joined with a dot; when the marker is the last relative
segment, or no segment is a marker, the name is the whole relative path
joined with a dot (not the basename); the basename fallback applies when no
workspace folder is a path prefix of the directory, in particular when none
exists; and the simple indexer ModuleIndexer.indexQmldir consults no markers
at all, naming the registered module after the directory basename whenever
the manifest carries no name-setting module directive. -/
theorem inferModuleName_amended (ws pre post : List String) (marker : String)
    (markers : List String) (hm : marker ∈ markers)
    (hpre : ∀ p ∈ pre, p ∉ markers) :
    (post ≠ [] →
      inferModuleName [ws] markers (ws ++ (pre ++ marker :: post))
        = strIntercalate "." post)
    ∧ inferModuleName [ws] markers (ws ++ (pre ++ [marker]))
        = strIntercalate "." (pre ++ [marker])
    ∧ (∀ parts : List String, (∀ p ∈ parts, p ∉ markers) →
        inferModuleName [ws] markers (ws ++ parts) = strIntercalate "." parts)
    ∧ (∀ (folders : List (List String)) (dir : List String),
        (∀ w ∈ folders, dir.take w.length ≠ w) →
        inferModuleName folders markers dir = baseName dir)
    ∧ (∀ (modules : ModuleMap) (qfs : String) (moduleDir : List String)
        (content : String) (m : QmlModule),
        (∀ e ∈ parseQmldir content,
          ¬ (e.type = QmldirEntryType.moduleDecl ∧ strTruthy e.moduleName = true
            ∧ ¬ strTruthy e.typeName = true)) →
        (indexQmldir modules qfs moduleDir content).2.1 = some m →
        m.name = baseName moduleDir) := by
  refine ⟨?_, ?_, ?_, ?_, ?_⟩
  · intro hpost
    simp only [inferModuleName, inferModuleNameLoop]
    rw [if_pos (List.take_left _ _), List.drop_left]
    rw [findIdx?_first_hit _ pre post marker (fun q hq => by simp [hpre q hq])
      (by simp [hm])]
    have hlen : pre.length < (pre ++ marker :: post).length - 1 := by
      have hp : 0 < post.length := List.length_pos.mpr hpost
      simp only [List.length_append, List.length_cons]
      omega
    change (if pre.length < (pre ++ marker :: post).length - 1 then
        strIntercalate "." (List.drop (pre.length + 1) (pre ++ marker :: post))
      else strIntercalate "." (pre ++ marker :: post)) = strIntercalate "." post
    rw [if_pos hlen]
    rw [show pre ++ marker :: post = (pre ++ [marker]) ++ post by simp]
    rw [show pre.length + 1 = (pre ++ [marker]).length by simp]
    rw [List.drop_left]
  · simp only [inferModuleName, inferModuleNameLoop]
    rw [if_pos (List.take_left _ _), List.drop_left]
    rw [findIdx?_first_hit _ pre [] marker (fun q hq => by simp [hpre q hq])
      (by simp [hm])]
    have hlen : ¬ pre.length < (pre ++ [marker]).length - 1 := by
      simp only [List.length_append, List.length_cons, List.length_nil]
      omega
    change (if pre.length < (pre ++ [marker]).length - 1 then
        strIntercalate "." (List.drop (pre.length + 1) (pre ++ [marker]))
      else strIntercalate "." (pre ++ [marker])) = strIntercalate "." (pre ++ [marker])
    rw [if_neg hlen]
  · intro parts hparts2
    simp only [inferModuleName, inferModuleNameLoop]
    rw [if_pos (List.take_left _ _), List.drop_left]
    rw [findIdx?_none_of_all _ _ (fun q hq => by simp [hparts2 q hq])]
  · intro folders dir h
    exact inferModuleNameLoop_no_prefix markers dir folders h
  · intro modules qfs moduleDir content m hno hsome
    exact indexQmldir_name_of_no_module modules qfs moduleDir content m hno hsome

/-- Witness for the amended C9 at the default markers: ws/a/qml/Ui/Widgets
gives Ui.Widgets (marker qml not last), ws/a/qml gives a.qml (marker last),
ws/a/b gives a.b (no marker), a directory outside the single workspace folder
gives its basename, and the module that indexQmldir registers for a
one-component manifest without a module directive in directory p is named p. -/
theorem inferModuleName_amended_witness :
    (inferModuleName [["ws"]] defaultRootMarkers
        (["ws"] ++ (["a"] ++ "qml" :: ["Ui", "Widgets"]))
      = strIntercalate "." ["Ui", "Widgets"])
    ∧ (inferModuleName [["ws"]] defaultRootMarkers (["ws"] ++ (["a"] ++ ["qml"]))
      = strIntercalate "." (["a"] ++ ["qml"]))
    ∧ (inferModuleName [["ws"]] defaultRootMarkers (["ws"] ++ ["a", "b"])
      = strIntercalate "." ["a", "b"])
    ∧ (inferModuleName [["ws"]] defaultRootMarkers ["out", "a", "b"]
      = baseName ["out", "a", "b"])
    ∧ basenameFallbackModule.name = baseName ["p"] := by
  have h := inferModuleName_amended ["ws"] ["a"] ["Ui", "Widgets"] "qml"
    defaultRootMarkers (by decide) (by decide)
  exact ⟨h.1 (by decide), h.2.1,
    h.2.2.1 ["a", "b"] (by decide),
    h.2.2.2.1 [["ws"]] ["out", "a", "b"] (by decide),
    h.2.2.2.2 [] "/p/qmldir" ["p"] noNameManifest basenameFallbackModule
      (by decide) (by decide)⟩

-- Idempotent re-index of an unchanged file (C6).

theorem mapFind_none_any_false {α : Type} (m : List (String × α)) (k : String) :
    mapFind m k = none ↔ m.any (fun p => p.1 = k) = false := by
  induction m with
  | nil => simp [mapFind]
  | cons p rest ih =>
    by_cases hp : p.1 = k
    · simp [mapFind, hp]
    · simp [mapFind, hp, ih]

theorem mapFind_append {α : Type} (m l : List (String × α)) (k : String) :
    mapFind (m ++ l) k =
      match mapFind m k with
      | some v => some v
      | none => mapFind l k := by
  induction m with
  | nil => simp [mapFind]
  | cons p rest ih =>
    by_cases hp : p.1 = k
    · simp [mapFind, hp]
    · simp only [List.cons_append, mapFind, hp, if_neg, not_false_iff]
      exact ih

theorem mapFind_map_replace {α : Type} (m : List (String × α)) (k q : String) (v : α) :
    mapFind (m.map (fun p => if p.1 = k then (k, v) else p)) q
    = if q = k then (if m.any (fun p => p.1 = k) then some v else none)
      else mapFind m q := by
  induction m with
  | nil => by_cases hq : q = k <;> simp [mapFind, hq]
  | cons p rest ih =>
    simp only [List.map_cons, List.any_cons]
    by_cases hp : p.1 = k
    · by_cases hq : q = k
      · simp [mapFind, hp, hq]
      · have hkq : ¬ k = q := fun hc => hq hc.symm
        have hpq : ¬ p.1 = q := fun hc => hq (hc.symm.trans hp)
        simp [mapFind, hp, hkq, hq, ih, hpq]
    · have hhead : (if p.1 = k then ((k, v) : String × α) else p) = p := if_neg hp
      have hdec : decide (p.1 = k) = false := decide_eq_false hp
      rw [hhead]
      simp only [hdec, Bool.false_or]
      by_cases hpq2 : p.1 = q
      · have hq : ¬ q = k := fun hc => hp (hpq2.trans hc)
        simp [mapFind, hpq2, hq]
      · simp only [mapFind, hpq2, if_neg, not_false_iff, ih]

theorem mapFind_mapSet_self {α : Type} (m : List (String × α)) (k : String) (v : α) :
    mapFind (mapSet m k v) k = some v := by
  unfold mapSet
  by_cases h : m.any (fun p => p.1 = k) = true
  · rw [if_pos h, mapFind_map_replace]
    simp [h]
  · rw [if_neg h, mapFind_append]
    have hnone : mapFind m k = none := by
      rw [mapFind_none_any_false]
      cases hm : m.any (fun p => p.1 = k)
      · rfl
      · rw [hm] at h
        exact absurd rfl h
    rw [hnone]
    simp [mapFind]

theorem mapFind_mapSet_ne {α : Type} (m : List (String × α)) (k q : String) (v : α)
    (hq : ¬ q = k) : mapFind (mapSet m k v) q = mapFind m q := by
  unfold mapSet
  by_cases h : m.any (fun p => p.1 = k) = true
  · rw [if_pos h, mapFind_map_replace, if_neg hq]
  · rw [if_neg h, mapFind_append]
    cases hm : mapFind m q with
    | some w => rfl
    | none =>
      simp only [mapFind]
      rw [if_neg (fun hc : k = q => hq hc.symm)]

theorem indexFile_cached (files : List (String × QmlFile)) (hashFn : String → String)
    (extract : String → ExtractedData) (uriString text : String) (mtime : Nat) :
    ∀ e, mapFind files uriString = some e → e.hash = hashFn text → e.mtime = mtime →
      indexFile files hashFn extract uriString text mtime = (files, e, false) := by
  intro e hfind hh hm
  unfold indexFile
  rw [hfind]
  simp only [hh, hm, and_self, if_pos]

theorem indexFile_post (files : List (String × QmlFile)) (hashFn : String → String)
    (extract : String → ExtractedData) (uriString text : String) (mtime : Nat) :
    mapFind (indexFile files hashFn extract uriString text mtime).1 uriString
      = some (indexFile files hashFn extract uriString text mtime).2.1
    ∧ (indexFile files hashFn extract uriString text mtime).2.1.hash = hashFn text
    ∧ (indexFile files hashFn extract uriString text mtime).2.1.mtime = mtime := by
  unfold indexFile indexFileParse
  cases hfind : mapFind files uriString with
  | some existing =>
    by_cases hcached : existing.hash = hashFn text ∧ existing.mtime = mtime
    · simp [hfind, hcached, hcached.1, hcached.2]
    · simp [hfind, hcached, mapFind_mapSet_self]
  | none => simp [hfind, mapFind_mapSet_self]

/-- C6: when a cached entry matches the current digest and mtime, indexFile
returns it unchanged without invoking the parser, and indexing the same
unchanged text and mtime twice returns bit-identical entries, the second call
never parsing. -/
theorem indexFile_idempotent (files : List (String × QmlFile)) (hashFn : String → String)
    (extract : String → ExtractedData) (uriString text : String) (mtime : Nat) :
    (∀ e, mapFind files uriString = some e → e.hash = hashFn text → e.mtime = mtime →
      indexFile files hashFn extract uriString text mtime = (files, e, false))
    ∧ indexFile (indexFile files hashFn extract uriString text mtime).1
        hashFn extract uriString text mtime
      = ((indexFile files hashFn extract uriString text mtime).1,
         (indexFile files hashFn extract uriString text mtime).2.1, false) := by
  refine ⟨indexFile_cached files hashFn extract uriString text mtime, ?_⟩
  obtain ⟨hfind, hh, hm⟩ := indexFile_post files hashFn extract uriString text mtime
  exact indexFile_cached _ hashFn extract uriString text mtime _ hfind hh hm

/-- Witness for C6: a cached entry for text X at mtime one is returned as is,
with no parse, under the identity digest and the empty extractor. -/
theorem indexFile_idempotent_witness :
    indexFile [("file:///ws/A.qml", sampleQmlFile)] idDigest emptyExtract
        "file:///ws/A.qml" "X" 1
      = ([("file:///ws/A.qml", sampleQmlFile)], sampleQmlFile, false) :=
  (indexFile_idempotent [("file:///ws/A.qml", sampleQmlFile)] idDigest emptyExtract
      "file:///ws/A.qml" "X" 1).1 sampleQmlFile (by decide) (by decide) (by decide)

-- Transactional batch atomicity (C3).

theorem runStmts_foldl_open {σ : Type} :
    ∀ (stmts : List ((σ → σ) × Bool)) (c : Conn σ) (b : Bool) (t : σ), c.txn = some t →
      ∃ t2,
        (stmts.foldl
          (fun acc s => if s.2 then (acc.1, true) else (applyStmt acc.1 s.1, acc.2))
          (c, b)).1.txn = some t2
        ∧ (stmts.foldl
            (fun acc s => if s.2 then (acc.1, true) else (applyStmt acc.1 s.1, acc.2))
            (c, b)).1.committed = c.committed
        ∧ (stmts.foldl
            (fun acc s => if s.2 then (acc.1, true) else (applyStmt acc.1 s.1, acc.2))
            (c, b)).2 = (b || stmts.any (fun s => s.2)) := by
  intro stmts
  induction stmts with
  | nil =>
    intro c b t hc
    exact ⟨t, hc, rfl, by simp⟩
  | cons s rest ih =>
    intro c b t hc
    rw [List.foldl_cons]
    by_cases hs : s.2 = true
    · rw [if_pos hs]
      obtain ⟨t2, h1, h2, h3⟩ := ih c true t hc
      exact ⟨t2, h1, h2, by rw [h3]; simp [List.any_cons, hs]⟩
    · rw [if_neg hs]
      have hs2 : s.2 = false := by
        cases hb : s.2
        · rfl
        · rw [hb] at hs; exact absurd rfl hs
      have happ : applyStmt c s.1 = { committed := c.committed, txn := some (s.1 t) } := by
        obtain ⟨comm, tx⟩ := c
        simp only at hc
        subst hc
        rfl
      rw [happ]
      obtain ⟨t2, h1, h2, h3⟩ := ih { committed := c.committed, txn := some (s.1 t) } b (s.1 t) rfl
      exact ⟨t2, h1, h2, by rw [h3]; simp [List.any_cons, hs2]⟩

theorem runStmts_no_fail {σ : Type} :
    ∀ (stmts : List ((σ → σ) × Bool)) (c : Conn σ) (t : σ), c.txn = some t →
      (∀ s ∈ stmts, s.2 = false) →
      runStmts c stmts
        = ({ committed := c.committed,
             txn := some (stmts.foldl (fun x s => s.1 x) t) }, false) := by
  intro stmts
  induction stmts with
  | nil =>
    intro c t hc _
    obtain ⟨comm, tx⟩ := c
    simp only at hc
    subst hc
    rfl
  | cons s rest ih =>
    intro c t hc hall
    have hs : s.2 = false := hall s (List.mem_cons_self _ _)
    have happ : applyStmt c s.1 = { committed := c.committed, txn := some (s.1 t) } := by
      obtain ⟨comm, tx⟩ := c
      simp only at hc
      subst hc
      rfl
    unfold runStmts
    rw [List.foldl_cons, if_neg (by rw [hs]; exact Bool.false_ne_true), happ]
    have := ih { committed := c.committed, txn := some (s.1 t) } (s.1 t) rfl
      (fun q hq => hall q (List.mem_cons_of_mem _ hq))
    unfold runStmts at this
    rw [this]
    rfl

theorem runStmts_with_fail {σ : Type} (stmts : List ((σ → σ) × Bool)) (c : Conn σ)
    (t : σ) (hc : c.txn = some t) (hfail : ∃ s ∈ stmts, s.2 = true) :
    (runStmts c stmts).1.committed = c.committed ∧ (runStmts c stmts).2 = true := by
  obtain ⟨t2, _, h2, h3⟩ := runStmts_foldl_open stmts c false t hc
  refine ⟨h2, ?_⟩
  rw [show (runStmts c stmts).2
      = (stmts.foldl
          (fun acc s => if s.2 then (acc.1, true) else (applyStmt acc.1 s.1, acc.2))
          (c, false)).2 from rfl, h3]
  obtain ⟨s, hs, hstrue⟩ := hfail
  simp only [Bool.false_or]
  rw [List.any_eq_true]
  exact ⟨s, hs, hstrue⟩

theorem saveQmlFilesBatch_atomic (c : Conn QmlFilesTable)
    (files : List (String × FileIndexEntry)) (failing : String → Bool)
    (hc : c.txn = none) :
    ((∀ f ∈ files, failing f.1 = false) →
      saveQmlFilesBatch c files failing
        = ({ committed := files.foldl (fun t f => mapSet t f.1 f.2) c.committed,
             txn := none }, true))
    ∧ ((∃ f ∈ files, failing f.1 = true) →
      saveQmlFilesBatch c files failing
        = ({ committed := c.committed, txn := none }, false)) := by
  constructor
  · intro hsucc
    unfold saveQmlFilesBatch
    by_cases hempty : files.isEmpty
    · rw [if_pos hempty]
      have hnil : files = [] := List.isEmpty_iff.mp hempty
      subst hnil
      obtain ⟨comm, tx⟩ := c
      simp only at hc
      subst hc
      rfl
    · rw [if_neg hempty]
      have hall : ∀ s ∈ files.map
          (fun f => ((fun t => mapSet t f.1 f.2 : QmlFilesTable → QmlFilesTable),
            failing f.1)), s.2 = false := by
        intro s hs
        obtain ⟨f, hf, rfl⟩ := List.mem_map.mp hs
        exact hsucc f hf
      rw [runStmts_no_fail _ (beginTx c) c.committed rfl hall]
      unfold finishTx
      simp only [if_neg (Bool.false_ne_true)]
      unfold commitTx
      simp only [List.foldl_map]
  · rintro ⟨f, hf, hfail⟩
    unfold saveQmlFilesBatch
    have hne : ¬ files.isEmpty = true := by
      cases files with
      | nil => simp at hf
      | cons a l => simp
    rw [if_neg hne]
    have hexists : ∃ s ∈ files.map
        (fun f => ((fun t => mapSet t f.1 f.2 : QmlFilesTable → QmlFilesTable),
          failing f.1)), s.2 = true :=
      ⟨_, List.mem_map_of_mem _ hf, hfail⟩
    obtain ⟨h2, h3⟩ := runStmts_with_fail _ (beginTx c) c.committed rfl hexists
    unfold finishTx
    rw [h3]
    simp only [if_pos]
    unfold rollbackTx
    rw [h2]
    rfl

theorem foldl_insertComponents (name : String) (comps : List (String × Component))
    (db : ModulesDb) :
    comps.foldl (fun x comp => insertComponentRow (name, comp.1) (compRowOf comp.2) x) db
    = { db with components := db.components
        ++ comps.map (fun comp => ((name, comp.1), compRowOf comp.2)) } := by
  induction comps generalizing db with
  | nil => cases db; simp
  | cons comp rest ih =>
    rw [List.foldl_cons, ih]
    simp [insertComponentRow]

theorem saveModule_atomic (c : Conn ModulesDb) (module : QmlModule) (lm : Nat)
    (fIM fD : Bool) (fC : String → Bool) (hc : c.txn = none) :
    ((fIM = false) → (fD = false) → (∀ comp ∈ module.components, fC comp.1 = false) →
      saveModule c module lm fIM fD fC
        = ({ committed := savedModulesDb c.committed module lm, txn := none }, true))
    ∧ ((fIM = true ∨ fD = true ∨ ∃ comp ∈ module.components, fC comp.1 = true) →
      saveModule c module lm fIM fD fC
        = ({ committed := c.committed, txn := none }, false)) := by
  constructor
  · intro h1 h2 h3
    unfold saveModule
    have hall : ∀ s ∈ (insertOrReplaceModule module.name
          { version := module.version, qmldirPath := module.qmldirPath,
            lastModified := lm }, fIM)
        :: (deleteComponents module.name, fD)
        :: module.components.map
            (fun comp => (insertComponentRow (module.name, comp.1) (compRowOf comp.2),
              fC comp.1)), s.2 = false := by
      intro s hs
      rcases List.mem_cons.mp hs with rfl | hs2
      · exact h1
      · rcases List.mem_cons.mp hs2 with rfl | hs3
        · exact h2
        · obtain ⟨comp, hcomp, rfl⟩ := List.mem_map.mp hs3
          exact h3 comp hcomp
    rw [runStmts_no_fail _ (beginTx c) c.committed rfl hall]
    unfold finishTx
    simp only [if_neg (Bool.false_ne_true)]
    unfold commitTx
    rw [List.foldl_cons, List.foldl_cons, List.foldl_map, foldl_insertComponents]
    rfl
  · intro hfail
    unfold saveModule
    have hex : ∃ s ∈ (insertOrReplaceModule module.name
          { version := module.version, qmldirPath := module.qmldirPath,
            lastModified := lm }, fIM)
        :: (deleteComponents module.name, fD)
        :: module.components.map
            (fun comp => (insertComponentRow (module.name, comp.1) (compRowOf comp.2),
              fC comp.1)), s.2 = true := by
      rcases hfail with h | h | ⟨comp, hcomp, h⟩
      · exact ⟨_, List.mem_cons_self _ _, h⟩
      · exact ⟨_, List.mem_cons_of_mem _ (List.mem_cons_self _ _), h⟩
      · exact ⟨_, List.mem_cons_of_mem _ (List.mem_cons_of_mem _
          (List.mem_map_of_mem _ hcomp)), h⟩
    obtain ⟨h2c, h3⟩ := runStmts_with_fail _ (beginTx c) c.committed rfl hex
    unfold finishTx
    rw [h3]
    simp only [if_pos]
    unfold rollbackTx
    rw [h2c]
    rfl

theorem mapSet_length_fresh {α : Type} (m : List (String × α)) (k : String) (v : α)
    (h : mapFind m k = none) : (mapSet m k v).length = m.length + 1 := by
  unfold mapSet
  rw [mapFind_none_any_false] at h
  rw [if_neg (by rw [h]; exact Bool.false_ne_true)]
  simp

theorem batch_row_count (files : List (String × FileIndexEntry)) (table : QmlFilesTable)
    (hnd : (files.map Prod.fst).Nodup) (hfresh : ∀ f ∈ files, mapFind table f.1 = none) :
    (files.foldl (fun t f => mapSet t f.1 f.2) table).length
      = table.length + files.length := by
  induction files generalizing table with
  | nil => simp
  | cons f rest ih =>
    rw [List.foldl_cons]
    have h1 : mapFind table f.1 = none := hfresh f (List.mem_cons_self _ _)
    have hnotin : f.1 ∉ rest.map Prod.fst := by
      simp only [List.map_cons, List.nodup_cons] at hnd
      exact hnd.1
    have hnd2 : (rest.map Prod.fst).Nodup := by
      simp only [List.map_cons, List.nodup_cons] at hnd
      exact hnd.2
    have hfresh2 : ∀ g ∈ rest, mapFind (mapSet table f.1 f.2) g.1 = none := by
      intro g hg
      have hne : ¬ g.1 = f.1 := by
        intro hc
        exact hnotin (hc ▸ List.mem_map_of_mem Prod.fst hg)
      rw [mapFind_mapSet_ne _ _ _ _ hne]
      exact hfresh g (List.mem_cons_of_mem _ hg)
    rw [ih (mapSet table f.1 f.2) hnd2 hfresh2, mapSet_length_fresh _ _ _ h1]
    simp only [List.length_cons]
    omega

/-- C3: a batch save of source-file entries runs in one transaction: with no
statement error exactly the given rows become visible (replace on conflict by
key, so fresh distinct keys add exactly N rows), and any statement error
rolls the whole batch back leaving the committed table untouched; the
module-plus-components save behaves the same way around its insert, delete
and per-component inserts. -/
theorem store_transactional_atomicity (c : Conn QmlFilesTable)
    (files : List (String × FileIndexEntry)) (failing : String → Bool)
    (cm : Conn ModulesDb) (module : QmlModule) (lm : Nat) (fIM fD : Bool)
    (fC : String → Bool) (hc : c.txn = none) (hcm : cm.txn = none) :
    ((∀ f ∈ files, failing f.1 = false) →
      saveQmlFilesBatch c files failing
        = ({ committed := files.foldl (fun t f => mapSet t f.1 f.2) c.committed,
             txn := none }, true)
      ∧ ((files.map Prod.fst).Nodup → (∀ f ∈ files, mapFind c.committed f.1 = none) →
          ((saveQmlFilesBatch c files failing).1.committed).length
            = c.committed.length + files.length))
    ∧ ((∃ f ∈ files, failing f.1 = true) →
      saveQmlFilesBatch c files failing
        = ({ committed := c.committed, txn := none }, false))
    ∧ ((fIM = false) → (fD = false) → (∀ comp ∈ module.components, fC comp.1 = false) →
      saveModule cm module lm fIM fD fC
        = ({ committed := savedModulesDb cm.committed module lm, txn := none }, true))
    ∧ ((fIM = true ∨ fD = true ∨ ∃ comp ∈ module.components, fC comp.1 = true) →
      saveModule cm module lm fIM fD fC
        = ({ committed := cm.committed, txn := none }, false)) := by
  refine ⟨?_, (saveQmlFilesBatch_atomic c files failing hc).2,
    (saveModule_atomic cm module lm fIM fD fC hcm).1,
    (saveModule_atomic cm module lm fIM fD fC hcm).2⟩
  intro hsucc
  have heq := (saveQmlFilesBatch_atomic c files failing hc).1 hsucc
  refine ⟨heq, ?_⟩
  intro hnd hfresh
  rw [heq]
  exact batch_row_count files c.committed hnd hfresh

/-- Witness for C3: committing two fresh entries yields both rows (two new
rows from an empty table) and a module save yields its row plus one component
row, both through the success path of the transaction. -/
theorem store_transactional_atomicity_witness :
    (saveQmlFilesBatch ⟨[], none⟩ [(uriRender uriA, entryA), (uriRender uriB, entryB)]
        (fun _ => false)
      = ({ committed := [(uriRender uriA, entryA), (uriRender uriB, entryB)].foldl
            (fun t f => mapSet t f.1 f.2) [], txn := none }, true)
      ∧ (((saveQmlFilesBatch ⟨[], none⟩
            [(uriRender uriA, entryA), (uriRender uriB, entryB)]
            (fun _ => false)).1.committed).length = 0 + 2))
    ∧ saveModule ⟨⟨[], []⟩, none⟩ fooBarBazModule 5 false false (fun _ => false)
      = ({ committed := savedModulesDb ⟨[], []⟩ fooBarBazModule 5, txn := none }, true) := by
  have h := store_transactional_atomicity ⟨[], none⟩
    [(uriRender uriA, entryA), (uriRender uriB, entryB)] (fun _ => false)
    ⟨⟨[], []⟩, none⟩ fooBarBazModule 5 false false (fun _ => false) rfl rfl
  refine ⟨⟨(h.1 (fun f _ => rfl)).1, ?_⟩, ?_⟩
  · have h2 := (h.1 (fun f _ => rfl)).2 (by decide) (by decide)
    simpa using h2
  · have h3 := h.2.2.1 rfl rfl (fun comp _ => rfl)
    exact h3
